import Mathlib

/-!
Verification of the helmwave-updater patch engine
(`controller-helmwave.go`): a shallow embedding of
`removeTopLevelSection` and `updateFileText` over byte strings modelled
as `List Char`, together with theorems about the testable properties of
the format-preserving structural patch engine.

Go strings are modelled as `List Char`; the Go standard-library helpers
used by the source (`strings.TrimSpace`, `strings.TrimLeft`,
`strings.HasPrefix`, `strings.TrimPrefix`, `strings.Index`,
`strings.Trim`, `strings.TrimRight`, `strings.Contains`,
`strings.Split`, `strings.Join`, `strings.Repeat`) are given direct
recursive definitions below.
-/

/-- A Go string: a list of characters. -/
abbrev Str := List Char

/-- Characters treated as white space by Go `unicode.IsSpace` for the
ASCII range relevant to the scanned documents. -/
def isSpaceC (c : Char) : Bool :=
  c = ' ' || c = '\t' || c = '\n' || c = '\x0b' || c = '\x0c' || c = '\r'

/-- Go `strings.TrimLeft(s, " ")`: strip leading space characters only. -/
def trimLeftSp : Str → Str
  | [] => []
  | c :: cs => if c = ' ' then trimLeftSp cs else c :: cs

/-- Strip leading white-space characters (left half of `strings.TrimSpace`). -/
def trimLeftWs : Str → Str
  | [] => []
  | c :: cs => if isSpaceC c then trimLeftWs cs else c :: cs

/-- Strip trailing white-space characters. -/
def trimRightWs (l : Str) : Str :=
  (trimLeftWs l.reverse).reverse

/-- Go `strings.TrimSpace`. -/
def trimSpaceG (l : Str) : Str :=
  trimRightWs (trimLeftWs l)

/-- Go `strings.HasPrefix(l, p)` (pattern given first). -/
def startsWith : Str → Str → Bool
  | [], _ => true
  | _ :: _, [] => false
  | p :: ps, c :: cs => p = c && startsWith ps cs

/-- Strip a leading run of characters belonging to `cut`
(left half of Go `strings.Trim`). -/
def trimCutLeft (cut : Str) : Str → Str
  | [] => []
  | c :: cs => if cut.contains c then trimCutLeft cut cs else c :: cs

/-- Go `strings.TrimRight(l, cut)`. -/
def trimCutRight (cut : Str) (l : Str) : Str :=
  (trimCutLeft cut l.reverse).reverse

/-- Go `strings.Trim(l, cut)`: strip a cut set from both ends. -/
def trimCutBoth (cut : Str) (l : Str) : Str :=
  trimCutRight cut (trimCutLeft cut l)

/-- Index of the first occurrence of character `c`, mirroring Go
`strings.Index(l, string(c))` for a one-character pattern. -/
def idxOf (c : Char) : Str → Option Nat
  | [] => none
  | d :: ds => if d = c then some 0 else (idxOf c ds).map (· + 1)

/-- Go `strings.Contains(l, string(c))` for a one-character pattern. -/
def hasChar (c : Char) (l : Str) : Bool :=
  (idxOf c l).isSome

/-- Indent of a line: `len(line) - len(strings.TrimLeft(line, " "))`. -/
def indentOf (l : Str) : Nat :=
  l.length - (trimLeftSp l).length

/-- Go `strings.Split(text, "\n")`. -/
def splitNl : Str → List Str
  | [] => [[]]
  | c :: cs =>
    if c = '\n' then [] :: splitNl cs
    else
      match splitNl cs with
      | [] => [[c]]
      | l :: ls => (c :: l) :: ls

/-- Go `strings.Join(lines, "\n")`. -/
def joinNl : List Str → Str
  | [] => []
  | [l] => l
  | l :: ls => l ++ '\n' :: joinNl ls

theorem splitNl_ne_nil (s : Str) : splitNl s ≠ [] := by
  induction s with
  | nil => simp [splitNl]
  | cons c cs ih =>
    simp only [splitNl]
    split
    · simp
    · cases h : splitNl cs with
      | nil => exact absurd h ih
      | cons l ls => simp

/-- Joining the split of a string recovers the string:
`strings.Join(strings.Split(s, "\n"), "\n") = s`. -/
theorem joinNl_splitNl (s : Str) : joinNl (splitNl s) = s := by
  induction s with
  | nil => simp [splitNl, joinNl]
  | cons c cs ih =>
    simp only [splitNl]
    split
    · rename_i hc
      subst hc
      cases h : splitNl cs with
      | nil => exact absurd h (splitNl_ne_nil cs)
      | cons l ls =>
        rw [h] at ih
        simp [joinNl, ih]
    · cases h : splitNl cs with
      | nil => exact absurd h (splitNl_ne_nil cs)
      | cons l ls =>
        rw [h] at ih
        cases ls with
        | nil => simp_all [joinNl]
        | cons l2 ls2 => simp_all [joinNl]

/-- A string with no newline splits into a single line. -/
theorem splitNl_of_nlFree {l : Str} (h : ¬ '\n' ∈ l) : splitNl l = [l] := by
  induction l with
  | nil => simp [splitNl]
  | cons c cs ih =>
    simp only [splitNl]
    have hc : c ≠ '\n' := fun hx => h (by simp [hx])
    rw [if_neg hc]
    rw [ih (fun hx => h (by simp [hx]))]

/-- Splitting after a newline-free first line peels it off. -/
theorem splitNl_append_nl {l r : Str} (h : ¬ '\n' ∈ l) :
    splitNl (l ++ '\n' :: r) = l :: splitNl r := by
  induction l with
  | nil => simp [splitNl]
  | cons c cs ih =>
    have hc : c ≠ '\n' := fun hx => h (by simp [hx])
    simp only [List.cons_append, splitNl, if_neg hc]
    have ih2 := ih (fun hx => h (by simp [hx]))
    rw [show cs.append ('\n' :: r) = cs ++ '\n' :: r from rfl, ih2]

/-- Splitting the join of newline-free lines recovers the lines. -/
theorem splitNl_joinNl {ls : List Str} (hne : ls ≠ [])
    (h : ∀ l ∈ ls, ¬ '\n' ∈ l) : splitNl (joinNl ls) = ls := by
  induction ls with
  | nil => exact absurd rfl hne
  | cons l ls ih =>
    cases ls with
    | nil =>
      simp only [joinNl]
      exact splitNl_of_nlFree (h l (by simp))
    | cons l2 ls2 =>
      simp only [joinNl]
      rw [splitNl_append_nl (h l (by simp))]
      rw [ih (by simp) (fun x hx => h x (by simp [hx]))]

/-! ## Key strings used by the scanner -/

/-- The sequence-item release key `"- name:"`. -/
def nameKeyRel : Str := "- name:".toList

/-- The plain mapping key `"name:"` used inside anchor chart blocks. -/
def nameKeyCh : Str := "name:".toList

/-- The block key `"chart:"`. -/
def chartKey : Str := "chart:".toList

/-- The scalar key `"version:"`. -/
def verKey : Str := "version:".toList

/-- The replacement line stem `"version: "` (with trailing space),
as written by the Go source when rebuilding a patched line. -/
def verKeySp : Str := "version: ".toList

/-- The anchor marker `"."`. -/
def dotKey : Str := ".".toList

/-- The comment marker `"#"`. -/
def hashKey : Str := "#".toList

/-- The quote cut set `"'\""` of `strings.Trim`. -/
def quoteCut : Str := ['\'', '"']

/-- The cut set `"# "` of the `strings.TrimRight` applied to `origVal`. -/
def hashSpCut : Str := ['#', ' ']

/-! ## removeTopLevelSection -/

/-- One pass of the line scanner of `removeTopLevelSection`
(`controller-helmwave.go:42`): `skip` and `si` carry the Go loop
variables `skip` and `sectionIndent`. -/
def stripScan (sect : Str) : Bool → Nat → List Str → List Str
  | _, _, [] => []
  | skip, si, l :: ls =>
    let indent := indentOf l
    if skip = false then
      if startsWith (sect ++ [':']) (trimSpaceG l) = true then
        stripScan sect true indent ls
      else
        l :: stripScan sect false si ls
    else
      if trimSpaceG l = [] then
        stripScan sect true si ls
      else if si < indent then
        stripScan sect true si ls
      else
        l :: stripScan sect false si ls

/-- `removeTopLevelSection` (`controller-helmwave.go:42`): remove a
top-level YAML section (with its indented block) by name. -/
def removeTopLevelSection (input : Str) (sect : Str) : Str :=
  joinNl (stripScan sect false 0 (splitNl input))

/-! ## updateFileText, release pass -/

/-- Scanner state of the release pass: the Go loop variables
`inRelease`, `inChart`, `chartIndent`. -/
structure RState where
  inRelease : Bool
  inChart : Bool
  chartIndent : Nat
deriving Repr, DecidableEq

/-- The name value extracted from a `- name:` line: comment stripped,
surrounding quotes trimmed (`controller-helmwave.go:99`). -/
def relNameOf (trimmed : Str) : Str :=
  let np0 := trimSpaceG (List.drop nameKeyRel.length trimmed)
  let np1 := match idxOf '#' np0 with
    | some idx => trimSpaceG (np0.take idx)
    | none => np0
  trimCutBoth quoteCut np1

/-- The value-and-comment split of a `version:` line
(`controller-helmwave.go:134`): `after` is the trimmed rest of the line. -/
def afterOf (trimmed : Str) : Str :=
  trimSpaceG (List.drop verKey.length trimmed)

/-- The trailing comment rebuilt for a patched line
(`controller-helmwave.go:135`). -/
def commentOf (after : Str) : Str :=
  match idxOf '#' after with
  | some idx => ' ' :: trimSpaceG (List.drop idx after)
  | none => []

/-- The extracted original value `origVal`
(`controller-helmwave.go:139`): note the trailing comment is not cut
off before the quote trim. -/
def origValOf (after : Str) : Str :=
  trimCutBoth quoteCut (trimCutRight hashSpCut (trimSpaceG after))

/-- The rebuilt replacement line (`controller-helmwave.go:150`):
original indentation, double quotes reused when the rest of the line
contains a quote character, trailing comment reattached. -/
def rebuiltLine (indent : Nat) (newVer after : Str) : Str :=
  let useQuotes := hasChar '"' after || hasChar '\'' after
  let valStr := if useQuotes then '"' :: (newVer ++ ['"']) else newVer
  List.replicate indent ' ' ++ verKeySp ++ valStr ++ commentOf after

/-- One iteration of the release-pass loop body over a single line
(`controller-helmwave.go:93`). Returns the next state and the
(possibly replaced) line. -/
def relStep (relName newVer : Str) (s : RState) (line : Str) : RState × Str :=
  let trimmed := trimSpaceG line
  let indent := indentOf line
  if startsWith nameKeyRel trimmed = true then
    if relNameOf trimmed = relName then
      ({ inRelease := true, inChart := false, chartIndent := s.chartIndent }, line)
    else if s.inRelease = true then
      ({ inRelease := false, inChart := false, chartIndent := s.chartIndent }, line)
    else (s, line)
  else if s.inRelease = false then (s, line)
  else if trimmed = chartKey then
    ({ s with inChart := true, chartIndent := indent }, line)
  else if s.inChart = true then
    if indent ≤ s.chartIndent ∧ startsWith verKey trimmed = false then
      ({ s with inChart := false }, line)
    else if startsWith verKey trimmed = true then
      let after := afterOf trimmed
      if origValOf after = newVer then
        ({ s with inRelease := false, inChart := false }, line)
      else
        ({ s with inRelease := false, inChart := false },
          rebuiltLine indent newVer after)
    else (s, line)
  else (s, line)

/-- The release pass scan over the line buffer. -/
def relScan (relName newVer : Str) : RState → List Str → List Str
  | _, [] => []
  | s, l :: ls =>
    let p := relStep relName newVer s l
    p.2 :: relScan relName newVer p.1 ls

/-- One full release pass (`for i := 0; ...` loop for one
`versionMap` entry, `controller-helmwave.go:87`). -/
def relPass (relName newVer : Str) (lines : List Str) : List Str :=
  relScan relName newVer ⟨false, false, 0⟩ lines

/-- All release passes, one per `versionMap` entry, in enumeration
order (the Go `for relName, newVer := range versionMap`). -/
def relPasses : List (Str × Str) → List Str → List Str
  | [], ls => ls
  | (k, v) :: rest, ls => relPasses rest (relPass k v ls)

/-! ## updateFileText, anchor pass -/

/-- Scanner state of the anchor pass: the Go loop variables
`inAnchor`, `inChart`, `anchorIndent`, `foundChartName`. -/
structure AState where
  inAnchor : Bool
  inChart : Bool
  anchorIndent : Nat
  foundChartName : Str
deriving Repr, DecidableEq

/-- The chart name recorded from a `name:` line inside an anchor chart
block (`controller-helmwave.go:218`): no comment handling here. -/
def anchorNameOf (trimmed : Str) : Str :=
  trimCutBoth quoteCut (trimSpaceG (List.drop nameKeyCh.length trimmed))

/-- One iteration of the anchor-pass loop body over a single line
(`controller-helmwave.go:178`). -/
def anchorStep (chartFullName newVer : Str) (s : AState) (line : Str) :
    AState × Str :=
  let trimmed := trimSpaceG line
  let indent := indentOf line
  if s.inAnchor = false ∧ startsWith dotKey trimmed = true ∧
      hasChar ':' trimmed = true then
    ({ inAnchor := true, inChart := false, anchorIndent := indent,
       foundChartName := [] }, line)
  else if s.inAnchor = true then
    if indent ≤ s.anchorIndent ∧ startsWith chartKey trimmed = false ∧
        startsWith hashKey trimmed = false then
      ({ s with inAnchor := false, inChart := false, foundChartName := [] },
        line)
    else if trimmed = chartKey then
      ({ s with inChart := true }, line)
    else if s.inChart = true then
      if indent ≤ s.anchorIndent ∧ startsWith nameKeyCh trimmed = false ∧
          startsWith verKey trimmed = false then
        ({ s with inChart := false }, line)
      else if startsWith nameKeyCh trimmed = true then
        ({ s with foundChartName := anchorNameOf trimmed }, line)
      else if startsWith verKey trimmed = true then
        if s.foundChartName = chartFullName then
          let after := afterOf trimmed
          if origValOf after = newVer then
            ({ s with inAnchor := false, inChart := false, foundChartName := ([] : Str) }, line)
          else
            ({ s with inAnchor := false, inChart := false, foundChartName := ([] : Str) },
              rebuiltLine indent newVer after)
        else (s, line)
      else (s, line)
    else (s, line)
  else (s, line)

/-- The anchor pass scan over the line buffer. -/
def anchorScan (chartFullName newVer : Str) : AState → List Str → List Str
  | _, [] => []
  | s, l :: ls =>
    let p := anchorStep chartFullName newVer s l
    p.2 :: anchorScan chartFullName newVer p.1 ls

/-- One full anchor pass (`controller-helmwave.go:172`), for one
`chartVersionMap` entry. -/
def anchorPass (chartFullName newVer : Str) (lines : List Str) : List Str :=
  anchorScan chartFullName newVer ⟨false, false, 0, []⟩ lines

/-- All anchor passes, one per `chartVersionMap` entry, in enumeration
order. -/
def anchorPasses : List (Str × Str) → List Str → List Str
  | [], ls => ls
  | (k, v) :: rest, ls => anchorPasses rest (anchorPass k v ls)

/-- The full patch engine over the split line buffer: all release
passes, then all anchor passes (`controller-helmwave.go:83`). -/
def updateFileLines (lines : List Str)
    (versionMap chartVersionMap : List (Str × Str)) : List Str :=
  anchorPasses chartVersionMap (relPasses versionMap lines)

/-- `updateFileText` (`controller-helmwave.go:83`): split on newlines,
run both passes, join with newlines.  The Go maps are modelled as
association lists in enumeration order. -/
def updateFileText (original : Str)
    (versionMap chartVersionMap : List (Str × Str)) : Str :=
  joinNl (updateFileLines (splitNl original) versionMap chartVersionMap)

/-! ## Support lemmas about the string primitives -/

theorem trimLeftSp_replicate_append (k : Nat) (l : Str) :
    trimLeftSp (List.replicate k ' ' ++ l) = trimLeftSp l := by
  induction k with
  | zero => simp
  | succ n ih => simpa [List.replicate_succ, trimLeftSp] using ih

theorem trimLeftWs_replicate_append (k : Nat) (l : Str) :
    trimLeftWs (List.replicate k ' ' ++ l) = trimLeftWs l := by
  induction k with
  | zero => simp
  | succ n ih => simpa [List.replicate_succ, trimLeftWs, isSpaceC] using ih

theorem trimSpaceG_replicate_append (k : Nat) (l : Str) :
    trimSpaceG (List.replicate k ' ' ++ l) = trimSpaceG l := by
  unfold trimSpaceG
  rw [trimLeftWs_replicate_append]

theorem trimLeftSp_length_le (l : Str) : (trimLeftSp l).length ≤ l.length := by
  induction l with
  | nil => simp [trimLeftSp]
  | cons c cs ih =>
    simp only [trimLeftSp]
    split
    · exact Nat.le_trans ih (by simp)
    · simp

theorem indentOf_replicate_append (k : Nat) (l : Str) :
    indentOf (List.replicate k ' ' ++ l) = k + indentOf l := by
  unfold indentOf
  rw [trimLeftSp_replicate_append]
  simp only [List.length_append, List.length_replicate]
  have := trimLeftSp_length_le l
  omega

theorem trimLeftSp_of_head {c : Char} (cs : Str) (h : c ≠ ' ') :
    trimLeftSp (c :: cs) = c :: cs := by
  simp [trimLeftSp, h]

theorem indentOf_of_head {c : Char} (cs : Str) (h : c ≠ ' ') :
    indentOf (c :: cs) = 0 := by
  unfold indentOf
  rw [trimLeftSp_of_head cs h, Nat.sub_self]

theorem trimLeftWs_append (a b : Str) :
    trimLeftWs (a ++ b) =
      if trimLeftWs a = [] then trimLeftWs b else trimLeftWs a ++ b := by
  induction a with
  | nil => simp [trimLeftWs]
  | cons c cs ih =>
    simp only [List.cons_append, trimLeftWs]
    split
    · simpa using ih
    · simp

theorem trimRightWs_append (a b : Str) :
    trimRightWs (a ++ b) =
      if trimRightWs b = [] then trimRightWs a else a ++ trimRightWs b := by
  unfold trimRightWs
  rw [List.reverse_append, trimLeftWs_append]
  split
  · rename_i h
    rw [if_pos]
    simpa using congrArg List.reverse h
  · rename_i h
    rw [if_neg]
    · simp
    · intro hx
      exact h (by simpa using congrArg List.reverse hx)

/-- All characters of `l` are non white space. -/
def nonWs (l : Str) : Prop := ∀ c ∈ l, isSpaceC c = false

theorem trimLeftWs_of_nonWs {l : Str} (h : nonWs l) : trimLeftWs l = l := by
  cases l with
  | nil => rfl
  | cons c cs => simp [trimLeftWs, h c (by simp)]

theorem trimRightWs_of_nonWs {l : Str} (h : nonWs l) : trimRightWs l = l := by
  unfold trimRightWs
  rw [trimLeftWs_of_nonWs, List.reverse_reverse]
  intro c hc
  exact h c (by simpa using hc)

theorem trimSpaceG_of_nonWs {l : Str} (h : nonWs l) : trimSpaceG l = l := by
  unfold trimSpaceG
  rw [trimLeftWs_of_nonWs h, trimRightWs_of_nonWs h]

theorem idxOf_eq_none {c : Char} {l : Str} (h : ∀ d ∈ l, d ≠ c) :
    idxOf c l = none := by
  induction l with
  | nil => rfl
  | cons d ds ih =>
    simp only [idxOf, if_neg (h d (by simp))]
    rw [ih (fun x hx => h x (by simp [hx]))]
    rfl

theorem hasChar_eq_false {c : Char} {l : Str} (h : ∀ d ∈ l, d ≠ c) :
    hasChar c l = false := by
  unfold hasChar
  rw [idxOf_eq_none h]
  rfl

theorem trimCutLeft_of_nonMem {cut l : Str}
    (h : ∀ d ∈ l, cut.contains d = false) : trimCutLeft cut l = l := by
  cases l with
  | nil => rfl
  | cons c cs =>
    have hc : cut.contains c = false := h c (by simp)
    simp only [trimCutLeft]
    rw [if_neg (by simpa using hc)]

theorem trimCutRight_of_nonMem {cut l : Str}
    (h : ∀ d ∈ l, cut.contains d = false) : trimCutRight cut l = l := by
  unfold trimCutRight
  rw [trimCutLeft_of_nonMem, List.reverse_reverse]
  intro d hd
  exact h d (by simpa using hd)

theorem trimCutBoth_of_nonMem {cut l : Str}
    (h : ∀ d ∈ l, cut.contains d = false) : trimCutBoth cut l = l := by
  unfold trimCutBoth
  rw [trimCutLeft_of_nonMem h, trimCutRight_of_nonMem h]

theorem startsWith_append_self (p r : Str) : startsWith p (p ++ r) = true := by
  induction p with
  | nil => rfl
  | cons c cs ih => simp [startsWith, ih]

/-- Characters allowed in a plain scalar token: no white space, no
comment marker, no quotes. -/
def plainChar (c : Char) : Bool :=
  !isSpaceC c && c ≠ '#' && c ≠ '"' && c ≠ '\''

/-- A plain scalar token: nonempty and made of plain characters. -/
def plainTok (l : Str) : Prop := l ≠ [] ∧ ∀ c ∈ l, plainChar c = true

theorem plainTok.nonWs {l : Str} (h : plainTok l) : nonWs l := by
  intro c hc
  have := h.2 c hc
  simp only [plainChar, Bool.and_eq_true, Bool.not_eq_true'] at this
  exact this.1.1.1

theorem plainTok.trimSpaceG {l : Str} (h : plainTok l) : trimSpaceG l = l :=
  trimSpaceG_of_nonWs h.nonWs

theorem plainTok.no_hash {l : Str} (h : plainTok l) : ∀ d ∈ l, d ≠ '#' := by
  intro d hd
  have := h.2 d hd
  simp only [plainChar, Bool.and_eq_true, decide_eq_true_eq] at this
  exact this.1.1.2

theorem plainTok.idxOf_hash {l : Str} (h : plainTok l) : idxOf '#' l = none :=
  idxOf_eq_none h.no_hash

theorem plainTok.no_quoteCut {l : Str} (h : plainTok l) :
    ∀ d ∈ l, quoteCut.contains d = false := by
  intro d hd
  have := h.2 d hd
  simp only [plainChar, Bool.and_eq_true, decide_eq_true_eq] at this
  simp [quoteCut, List.contains, this.1.2, this.2]

theorem plainTok.no_hashSpCut {l : Str} (h : plainTok l) :
    ∀ d ∈ l, hashSpCut.contains d = false := by
  intro d hd
  have h1 := h.2 d hd
  simp only [plainChar, Bool.and_eq_true, Bool.not_eq_true',
    decide_eq_true_eq] at h1
  have hsp : d ≠ ' ' := by
    intro hx
    rw [hx] at h1
    simp [isSpaceC] at h1
  simp [hashSpCut, List.contains, h1.1.1.2, hsp]

/-! ## Step lemmas for lines of recognized shapes -/

theorem relScan_cons (k v : Str) (s : RState) (l : Str) (ls : List Str) :
    relScan k v s (l :: ls) =
      (relStep k v s l).2 :: relScan k v (relStep k v s l).1 ls := rfl

theorem anchorScan_cons (k v : Str) (s : AState) (l : Str) (ls : List Str) :
    anchorScan k v s (l :: ls) =
      (anchorStep k v s l).2 :: anchorScan k v (anchorStep k v s l).1 ls := rfl

theorem startsWith_nameKeyRel_ver (tok : Str) :
    startsWith nameKeyRel (verKeySp ++ tok) = false := rfl

theorem startsWith_verKey_ver (tok : Str) :
    startsWith verKey (verKeySp ++ tok) = true := by
  rw [show verKeySp ++ tok = verKey ++ (' ' :: tok) from rfl]
  exact startsWith_append_self _ _

theorem ne_chartKey_ver (tok : Str) : (verKeySp ++ tok) ≠ chartKey := by
  intro h
  rw [show verKeySp ++ tok = 'v' :: ("ersion: ".toList ++ tok) from rfl] at h
  injection h with h1 _
  exact absurd h1 (by decide)

theorem trimSpaceG_ver_tok {tok : Str} (hp : plainTok tok) (i : Nat) :
    trimSpaceG (List.replicate i ' ' ++ (verKeySp ++ tok)) = verKeySp ++ tok := by
  rw [trimSpaceG_replicate_append]
  unfold trimSpaceG
  rw [trimLeftWs_append, show trimLeftWs verKeySp = verKeySp from by decide,
    if_neg (by decide : ¬(verKeySp = ([] : Str)))]
  rw [trimRightWs_append, trimRightWs_of_nonWs hp.nonWs, if_neg hp.1]

theorem indentOf_ver_tok (tok : Str) (i : Nat) :
    indentOf (List.replicate i ' ' ++ (verKeySp ++ tok)) = i := by
  rw [indentOf_replicate_append,
    show (verKeySp ++ tok : Str) = 'v' :: ("ersion: ".toList ++ tok) from rfl,
    indentOf_of_head _ (by decide), Nat.add_zero]

theorem afterOf_ver_tok {tok : Str} (hp : plainTok tok) :
    afterOf (verKeySp ++ tok) = tok := by
  unfold afterOf
  rw [show List.drop verKey.length (verKeySp ++ tok) = ' ' :: tok from rfl]
  rw [show trimSpaceG (' ' :: tok) = trimSpaceG tok from rfl, hp.trimSpaceG]

theorem origValOf_plain {tok : Str} (hp : plainTok tok) : origValOf tok = tok := by
  unfold origValOf
  rw [hp.trimSpaceG, trimCutRight_of_nonMem hp.no_hashSpCut,
    trimCutBoth_of_nonMem hp.no_quoteCut]

theorem plainTok.no_dquote {l : Str} (h : plainTok l) : ∀ d ∈ l, d ≠ '"' := by
  intro d hd
  have := h.2 d hd
  simp only [plainChar, Bool.and_eq_true, decide_eq_true_eq] at this
  exact this.1.2

theorem plainTok.no_squote {l : Str} (h : plainTok l) : ∀ d ∈ l, d ≠ '\'' := by
  intro d hd
  have := h.2 d hd
  simp only [plainChar, Bool.and_eq_true, decide_eq_true_eq] at this
  exact this.2

theorem rebuiltLine_plain {tok : Str} (hp : plainTok tok) (i : Nat) (v : Str) :
    rebuiltLine i v tok = List.replicate i ' ' ++ (verKeySp ++ v) := by
  unfold rebuiltLine commentOf
  rw [hp.idxOf_hash]
  rw [hasChar_eq_false hp.no_dquote, hasChar_eq_false hp.no_squote]
  simp

/-- Release-pass step on a `version:` line carrying a plain token, while
inside an open Chart scope: both the idempotent and the rewriting branch
close the Release and Chart scopes and leave the line carrying the
requested version. -/
theorem relStep_verLine (k v tok : Str) (s : RState) (i : Nat)
    (hR : s.inRelease = true) (hC : s.inChart = true) (hp : plainTok tok) :
    relStep k v s (List.replicate i ' ' ++ (verKeySp ++ tok)) =
      ({ s with inRelease := false, inChart := false },
        List.replicate i ' ' ++ (verKeySp ++ v)) := by
  simp only [relStep, trimSpaceG_ver_tok hp, indentOf_ver_tok,
    afterOf_ver_tok hp, origValOf_plain hp, rebuiltLine_plain hp,
    startsWith_nameKeyRel_ver, startsWith_verKey_ver, hR, hC,
    ne_chartKey_ver, Bool.false_eq_true, Bool.true_eq_false, if_false,
    if_true, and_false, ite_false, ite_true, iff_false, not_false_iff]
  split
  · rename_i h
    rw [h]
  · rfl

/-- Anchor-pass step when outside an anchor on a line that is not a
dot-prefixed anchor opener: nothing happens. -/
theorem anchorStep_out (k v : Str) (s : AState) (l : Str)
    (hA : s.inAnchor = false)
    (hd : startsWith dotKey (trimSpaceG l) = false) :
    anchorStep k v s l = (s, l) := by
  simp only [anchorStep, hA, hd, Bool.false_eq_true, and_false, false_and,
    if_false, ite_false, if_neg (by simp : ¬(False ∧ True ∧ True))]

/-- Anchor-pass step when outside an anchor on a dot-prefixed line
containing a colon: the anchor opens at the line's indent. -/
theorem anchorStep_dot (k v : Str) (s : AState) (l : Str)
    (hA : s.inAnchor = false)
    (h1 : startsWith dotKey (trimSpaceG l) = true)
    (h2 : hasChar ':' (trimSpaceG l) = true) :
    anchorStep k v s l =
      ({ inAnchor := true, inChart := false, anchorIndent := indentOf l,
         foundChartName := [] }, l) := by
  simp only [anchorStep, hA, h1, h2, and_true, if_true, ite_true]

/-- Anchor-pass step on an exact `chart:` line while inside an anchor:
the Chart scope opens (regardless of indent, since a `chart:` line never
triggers the anchor-exit test). -/
theorem anchorStep_chart (k v : Str) (s : AState) (i : Nat)
    (hA : s.inAnchor = true) :
    anchorStep k v s (List.replicate i ' ' ++ chartKey) =
      ({ s with inChart := true }, List.replicate i ' ' ++ chartKey) := by
  have htr : trimSpaceG (List.replicate i ' ' ++ chartKey) = chartKey := by
    rw [trimSpaceG_replicate_append]
    decide
  simp only [anchorStep, htr, hA, Bool.true_eq_false, false_and, if_false,
    ite_false, if_true, ite_true,
    show startsWith chartKey chartKey = true from rfl, Bool.true_eq_false,
    and_false, false_and, if_pos rfl]

/-- Anchor-pass step on a `name:` line carrying a plain token, inside an
open anchor Chart scope at indent deeper than the anchor's: the chart
name is recorded. -/
theorem anchorStep_name (k v tok : Str) (s : AState) (i : Nat)
    (hA : s.inAnchor = true) (hC : s.inChart = true)
    (hi : ¬ i ≤ s.anchorIndent) (hp : plainTok tok) :
    anchorStep k v s (List.replicate i ' ' ++ ("name: ".toList ++ tok)) =
      ({ s with foundChartName := tok },
        List.replicate i ' ' ++ ("name: ".toList ++ tok)) := by
  have htr : trimSpaceG (List.replicate i ' ' ++ ("name: ".toList ++ tok)) =
      "name: ".toList ++ tok := by
    rw [trimSpaceG_replicate_append]
    unfold trimSpaceG
    rw [trimLeftWs_append,
      show trimLeftWs "name: ".toList = "name: ".toList from by decide,
      if_neg (by decide : ¬("name: ".toList = ([] : Str)))]
    rw [trimRightWs_append, trimRightWs_of_nonWs hp.nonWs, if_neg hp.1]
  have hio : indentOf (List.replicate i ' ' ++ ("name: ".toList ++ tok)) = i := by
    rw [indentOf_replicate_append,
      show ("name: ".toList ++ tok : Str) = 'n' :: ("ame: ".toList ++ tok) from rfl,
      indentOf_of_head _ (by decide), Nat.add_zero]
  have hnm : anchorNameOf ("name: ".toList ++ tok) = tok := by
    unfold anchorNameOf
    rw [show List.drop nameKeyCh.length ("name: ".toList ++ tok) = ' ' :: tok from rfl]
    rw [show trimSpaceG (' ' :: tok) = trimSpaceG tok from rfl, hp.trimSpaceG]
    exact trimCutBoth_of_nonMem hp.no_quoteCut
  have hne : ("name: ".toList ++ tok : Str) ≠ chartKey := by
    intro h
    rw [show ("name: ".toList ++ tok : Str) = 'n' :: ("ame: ".toList ++ tok) from rfl] at h
    injection h with h1 _
    exact absurd h1 (by decide)
  simp only [anchorStep, htr, hio, hnm, hA, hC, hne,
    show startsWith nameKeyCh ("name: ".toList ++ tok) = true from
      startsWith_append_self nameKeyCh (' ' :: tok),
    show startsWith chartKey ("name: ".toList ++ tok) = false from rfl,
    show startsWith verKey ("name: ".toList ++ tok) = false from rfl,
    show startsWith dotKey ("name: ".toList ++ tok) = false from rfl,
    Bool.true_eq_false, Bool.false_eq_true, false_and, and_false, if_false,
    ite_false, if_true, ite_true, and_true, true_and, if_neg hi]
  simp [hi]

/-- Anchor-pass step on a `version:` line carrying a plain token, inside
an open anchor Chart scope at indent deeper than the anchor's: if the
recorded chart name matches the requested identity, both branches close
the scopes and the line carries the requested version; otherwise nothing
happens. -/
theorem anchorStep_ver (k v tok : Str) (s : AState) (i : Nat)
    (hA : s.inAnchor = true) (hC : s.inChart = true)
    (hi : ¬ i ≤ s.anchorIndent) (hp : plainTok tok) :
    anchorStep k v s (List.replicate i ' ' ++ (verKeySp ++ tok)) =
      if s.foundChartName = k then
        ({ s with inAnchor := false, inChart := false, foundChartName := [] },
          List.replicate i ' ' ++ (verKeySp ++ v))
      else (s, List.replicate i ' ' ++ (verKeySp ++ tok)) := by
  simp only [anchorStep, trimSpaceG_ver_tok hp, indentOf_ver_tok,
    afterOf_ver_tok hp, origValOf_plain hp, rebuiltLine_plain hp,
    hA, hC, ne_chartKey_ver, startsWith_verKey_ver,
    show startsWith dotKey (verKeySp ++ tok) = false from rfl,
    show startsWith chartKey (verKeySp ++ tok) = false from rfl,
    show startsWith hashKey (verKeySp ++ tok) = false from rfl,
    show startsWith nameKeyCh (verKeySp ++ tok) = false from rfl,
    Bool.true_eq_false, Bool.false_eq_true, false_and, and_false, if_false,
    ite_false, if_true, ite_true, and_true, true_and, if_neg hi]
  split
  · split
    · rename_i h1 h2
      rw [h2]
    · rfl
  · rfl

/-- Anchor-pass step on a line whose trimmed form is empty (a blank
line) while inside an anchor opened at indent 0: the anchor closes. -/
theorem anchorStep_blank (k v : Str) (s : AState)
    (hA : s.inAnchor = true) :
    anchorStep k v s [] =
      ({ s with inAnchor := false, inChart := false, foundChartName := [] },
        []) := by
  simp only [anchorStep, hA, Bool.true_eq_false, false_and, if_false,
    ite_false, if_true, ite_true,
    show trimSpaceG ([] : Str) = [] from rfl,
    show indentOf ([] : Str) = 0 from rfl,
    show startsWith dotKey ([] : Str) = false from rfl,
    show startsWith chartKey ([] : Str) = false from rfl,
    show startsWith hashKey ([] : Str) = false from rfl]
  simp

/-! ## Output shape of a step -/

/-- The release-pass step either keeps the line or replaces it by the
rebuilt `version:` line; replacement happens only at a `version:` line
while both scopes are open. -/
theorem relStep_snd (k v : Str) (s : RState) (l : Str) :
    (relStep k v s l).2 = l ∨
      ((relStep k v s l).2 =
          rebuiltLine (indentOf l) v (afterOf (trimSpaceG l)) ∧
        startsWith verKey (trimSpaceG l) = true ∧
        s.inRelease = true ∧ s.inChart = true) := by
  rcases hstep : relStep k v s l with ⟨s2, l2⟩
  unfold relStep at hstep
  dsimp only at hstep
  split at hstep
  · split at hstep
    · injection hstep with ha hb
      exact Or.inl hb.symm
    · split at hstep
      · injection hstep with ha hb
        exact Or.inl hb.symm
      · injection hstep with ha hb
        exact Or.inl hb.symm
  · split at hstep
    · injection hstep with ha hb
      exact Or.inl hb.symm
    · split at hstep
      · injection hstep with ha hb
        exact Or.inl hb.symm
      · split at hstep
        · split at hstep
          · injection hstep with ha hb
            exact Or.inl hb.symm
          · split at hstep
            · split at hstep
              · injection hstep with ha hb
                exact Or.inl hb.symm
              · rename_i hnotname hrel hnotchart hin hnotclose hver hnotorig
                injection hstep with ha hb
                refine Or.inr ⟨hb.symm, hver, ?_, hin⟩
                simp only [Bool.not_eq_false] at hrel
                exact hrel
            · injection hstep with ha hb
              exact Or.inl hb.symm
        · injection hstep with ha hb
          exact Or.inl hb.symm

theorem anchorStep_snd (k v : Str) (s : AState) (l : Str) :
    (anchorStep k v s l).2 = l ∨
      ((anchorStep k v s l).2 =
          rebuiltLine (indentOf l) v (afterOf (trimSpaceG l)) ∧
        startsWith verKey (trimSpaceG l) = true ∧
        s.inAnchor = true ∧ s.inChart = true ∧ s.foundChartName = k) := by
  rcases hstep : anchorStep k v s l with ⟨s2, l2⟩
  unfold anchorStep at hstep
  dsimp only at hstep
  split at hstep
  · injection hstep with ha hb
    exact Or.inl hb.symm
  · split at hstep
    · split at hstep
      · injection hstep with ha hb
        exact Or.inl hb.symm
      · split at hstep
        · injection hstep with ha hb
          exact Or.inl hb.symm
        · split at hstep
          · split at hstep
            · injection hstep with ha hb
              exact Or.inl hb.symm
            · split at hstep
              · injection hstep with ha hb
                exact Or.inl hb.symm
              · split at hstep
                · split at hstep
                  · split at hstep
                    · injection hstep with ha hb
                      exact Or.inl hb.symm
                    · rename_i hnotdot hanch hnotexit hnotchart hin hnotclose hnotname hver hfound hnotorig
                      injection hstep with ha hb
                      exact Or.inr ⟨hb.symm, hver, hanch, hin, hfound⟩
                  · injection hstep with ha hb
                    exact Or.inl hb.symm
                · injection hstep with ha hb
                  exact Or.inl hb.symm
          · injection hstep with ha hb
            exact Or.inl hb.symm
    · injection hstep with ha hb
      exact Or.inl hb.symm

/-! ## Length preservation (claim C9) -/

theorem relScan_length (k v : Str) (s : RState) (ls : List Str) :
    (relScan k v s ls).length = ls.length := by
  induction ls generalizing s with
  | nil => rfl
  | cons l ls ih => simp [relScan_cons, ih]

theorem anchorScan_length (k v : Str) (s : AState) (ls : List Str) :
    (anchorScan k v s ls).length = ls.length := by
  induction ls generalizing s with
  | nil => rfl
  | cons l ls ih => simp [anchorScan_cons, ih]

theorem relPasses_length (m : List (Str × Str)) (ls : List Str) :
    (relPasses m ls).length = ls.length := by
  induction m generalizing ls with
  | nil => rfl
  | cons kv rest ih =>
    rcases kv with ⟨k, v⟩
    rw [relPasses, ih, relPass, relScan_length]

theorem anchorPasses_length (m : List (Str × Str)) (ls : List Str) :
    (anchorPasses m ls).length = ls.length := by
  induction m generalizing ls with
  | nil => rfl
  | cons kv rest ih =>
    rcases kv with ⟨k, v⟩
    rw [anchorPasses, ih, anchorPass, anchorScan_length]

theorem updateFileLines_length (ls : List Str) (m1 m2 : List (Str × Str)) :
    (updateFileLines ls m1 m2).length = ls.length := by
  rw [updateFileLines, anchorPasses_length, relPasses_length]

/-! ## Newline-freeness of rebuilt lines -/

theorem mem_trimLeftWs {c : Char} {l : Str} (h : c ∈ trimLeftWs l) : c ∈ l := by
  induction l with
  | nil => simp [trimLeftWs] at h
  | cons d ds ih =>
    simp only [trimLeftWs] at h
    split at h
    · exact List.mem_cons_of_mem d (ih h)
    · exact h

theorem mem_trimRightWs {c : Char} {l : Str} (h : c ∈ trimRightWs l) : c ∈ l := by
  unfold trimRightWs at h
  rw [List.mem_reverse] at h
  have := mem_trimLeftWs h
  simpa using this

theorem mem_trimSpaceG {c : Char} {l : Str} (h : c ∈ trimSpaceG l) : c ∈ l :=
  mem_trimLeftWs (mem_trimRightWs h)

theorem mem_afterOf {c : Char} {t : Str} (h : c ∈ afterOf t) : c ∈ t := by
  unfold afterOf at h
  exact List.mem_of_mem_drop (mem_trimSpaceG h)

theorem mem_commentOf {c : Char} {a : Str} (h : c ∈ commentOf a) :
    c = ' ' ∨ c ∈ a := by
  unfold commentOf at h
  split at h
  · rcases List.mem_cons.1 h with h1 | h1
    · exact Or.inl h1
    · exact Or.inr (List.mem_of_mem_drop (mem_trimSpaceG h1))
  · simp at h

theorem nlFree_rebuiltLine {v a : Str} (i : Nat)
    (hv : ¬ '\n' ∈ v) (ha : ¬ '\n' ∈ a) : ¬ '\n' ∈ rebuiltLine i v a := by
  unfold rebuiltLine
  intro h
  dsimp only at h
  simp only [List.mem_append] at h
  rcases h with ((h | h) | h) | h
  · rw [List.mem_replicate] at h
    exact absurd h.2 (by decide)
  · exact absurd h (by decide)
  · split at h
    · rcases List.mem_cons.1 h with h1 | h1
      · exact absurd h1 (by decide)
      · rcases List.mem_append.1 h1 with h2 | h2
        · exact hv h2
        · rw [List.mem_singleton] at h2
          exact absurd h2 (by decide)
    · exact hv h
  · rcases mem_commentOf h with h1 | h1
    · exact absurd h1 (by decide)
    · exact ha h1

theorem nlFree_relStep {k v : Str} {s : RState} {l : Str}
    (hv : ¬ '\n' ∈ v) (hl : ¬ '\n' ∈ l) : ¬ '\n' ∈ (relStep k v s l).2 := by
  rcases relStep_snd k v s l with h | ⟨h, _⟩
  · rw [h]; exact hl
  · rw [h]
    exact nlFree_rebuiltLine _ hv
      (fun hx => hl (mem_trimSpaceG (mem_afterOf hx)))

theorem nlFree_anchorStep {k v : Str} {s : AState} {l : Str}
    (hv : ¬ '\n' ∈ v) (hl : ¬ '\n' ∈ l) : ¬ '\n' ∈ (anchorStep k v s l).2 := by
  rcases anchorStep_snd k v s l with h | ⟨h, _⟩
  · rw [h]; exact hl
  · rw [h]
    exact nlFree_rebuiltLine _ hv
      (fun hx => hl (mem_trimSpaceG (mem_afterOf hx)))

theorem nlFree_relScan {k v : Str} {s : RState} {ls : List Str}
    (hv : ¬ '\n' ∈ v) (hls : ∀ l ∈ ls, ¬ '\n' ∈ l) :
    ∀ l ∈ relScan k v s ls, ¬ '\n' ∈ l := by
  induction ls generalizing s with
  | nil => simp [relScan]
  | cons l ls ih =>
    rw [relScan_cons]
    intro x hx
    rcases List.mem_cons.1 hx with h | h
    · rw [h]
      exact nlFree_relStep hv (hls l (by simp))
    · exact ih (fun y hy => hls y (by simp [hy])) x h

theorem nlFree_anchorScan {k v : Str} {s : AState} {ls : List Str}
    (hv : ¬ '\n' ∈ v) (hls : ∀ l ∈ ls, ¬ '\n' ∈ l) :
    ∀ l ∈ anchorScan k v s ls, ¬ '\n' ∈ l := by
  induction ls generalizing s with
  | nil => simp [anchorScan]
  | cons l ls ih =>
    rw [anchorScan_cons]
    intro x hx
    rcases List.mem_cons.1 hx with h | h
    · rw [h]
      exact nlFree_anchorStep hv (hls l (by simp))
    · exact ih (fun y hy => hls y (by simp [hy])) x h

theorem nlFree_relPasses {m : List (Str × Str)} {ls : List Str}
    (hv : ∀ kv ∈ m, ¬ '\n' ∈ kv.2) (hls : ∀ l ∈ ls, ¬ '\n' ∈ l) :
    ∀ l ∈ relPasses m ls, ¬ '\n' ∈ l := by
  induction m generalizing ls with
  | nil => exact hls
  | cons kv rest ih =>
    rcases kv with ⟨k, v⟩
    rw [relPasses]
    exact ih (fun x hx => hv x (by simp [hx]))
      (nlFree_relScan (hv (k, v) (by simp)) hls)

theorem nlFree_anchorPasses {m : List (Str × Str)} {ls : List Str}
    (hv : ∀ kv ∈ m, ¬ '\n' ∈ kv.2) (hls : ∀ l ∈ ls, ¬ '\n' ∈ l) :
    ∀ l ∈ anchorPasses m ls, ¬ '\n' ∈ l := by
  induction m generalizing ls with
  | nil => exact hls
  | cons kv rest ih =>
    rcases kv with ⟨k, v⟩
    rw [anchorPasses]
    exact ih (fun x hx => hv x (by simp [hx]))
      (nlFree_anchorScan (hv (k, v) (by simp)) hls)

theorem splitNl_lines_nlFree (s : Str) : ∀ l ∈ splitNl s, ¬ '\n' ∈ l := by
  induction s with
  | nil =>
    intro l hl
    simp only [splitNl, List.mem_singleton] at hl
    simp [hl]
  | cons c cs ih =>
    intro l hl
    simp only [splitNl] at hl
    split at hl
    · rcases List.mem_cons.1 hl with h | h
      · simp [h]
      · exact ih l h
    · rename_i hc
      cases hsp : splitNl cs with
      | nil => exact absurd hsp (splitNl_ne_nil cs)
      | cons a as =>
        rw [hsp] at hl
        rcases List.mem_cons.1 hl with h | h
        · rw [h]
          intro hmem
          rcases List.mem_cons.1 hmem with h1 | h1
          · exact hc h1.symm
          · exact ih a (by simp [hsp]) h1
        · exact ih l (by simp [hsp, h])

/-- The number of lines of the patched text equals the number of lines
of the input text, provided no requested version string smuggles in a
newline. -/
theorem updateFileText_lineCount (input : Str) (m1 m2 : List (Str × Str))
    (hv1 : ∀ kv ∈ m1, ¬ '\n' ∈ kv.2) (hv2 : ∀ kv ∈ m2, ¬ '\n' ∈ kv.2) :
    (splitNl (updateFileText input m1 m2)).length =
      (splitNl input).length := by
  unfold updateFileText
  have hnl : ∀ l ∈ updateFileLines (splitNl input) m1 m2, ¬ '\n' ∈ l := by
    unfold updateFileLines
    exact nlFree_anchorPasses hv2
      (nlFree_relPasses hv1 (splitNl_lines_nlFree input))
  have hne : updateFileLines (splitNl input) m1 m2 ≠ [] := by
    intro h
    have := updateFileLines_length (splitNl input) m1 m2
    rw [h] at this
    exact splitNl_ne_nil input (List.length_eq_zero.1 this.symm)
  rw [splitNl_joinNl hne hnl, updateFileLines_length]

/-- C9: for every input and every pair of mappings, the patch engine
preserves the number of lines: the line buffer keeps its length
(unconditionally), and the emitted text has exactly as many lines as
the input whenever the requested version strings are newline-free
(patching only replaces `version:` lines in place, never inserting or
deleting lines). -/
theorem c9_patch_preserves_line_count :
    (∀ (ls : List Str) (m1 m2 : List (Str × Str)),
        (updateFileLines ls m1 m2).length = ls.length) ∧
    (∀ (input : Str) (m1 m2 : List (Str × Str)),
        (∀ kv ∈ m1, ¬ '\n' ∈ kv.2) → (∀ kv ∈ m2, ¬ '\n' ∈ kv.2) →
        (splitNl (updateFileText input m1 m2)).length =
          (splitNl input).length) :=
  ⟨updateFileLines_length,
    fun input m1 m2 h1 h2 => updateFileText_lineCount input m1 m2 h1 h2⟩

/-- Witness for C9 at a concrete document and mapping. -/
theorem c9_patch_preserves_line_count_witness :
    (splitNl (updateFileText
        "- name: app\n  chart:\n    version: 1.0.0".toList
        [("app".toList, "2.0.0".toList)] [])).length =
      (splitNl "- name: app\n  chart:\n    version: 1.0.0".toList).length :=
  c9_patch_preserves_line_count.2
    "- name: app\n  chart:\n    version: 1.0.0".toList
    [("app".toList, "2.0.0".toList)] [] (by decide) (by decide)

/-! ## Absent release name (claim C8) -/

/-- A line opens a Release scope for `k` exactly when it is a `- name:`
line whose extracted value is `k`. -/
def relOpens (k : Str) (l : Str) : Prop :=
  startsWith nameKeyRel (trimSpaceG l) = true ∧ relNameOf (trimSpaceG l) = k

instance (k l : Str) : Decidable (relOpens k l) := by
  unfold relOpens
  infer_instance

theorem relStep_absent {k v : Str} {s : RState} {l : Str}
    (hR : s.inRelease = false) (h : ¬ relOpens k l) :
    relStep k v s l = (s, l) := by
  unfold relStep
  dsimp only
  split
  · rename_i hname
    rw [if_neg (fun hmatch => h ⟨hname, hmatch⟩), if_neg (by rw [hR]; simp)]
  · simp [hR]

theorem relScan_absent {k v : Str} {s : RState} {ls : List Str}
    (hR : s.inRelease = false) (h : ∀ l ∈ ls, ¬ relOpens k l) :
    relScan k v s ls = ls := by
  induction ls with
  | nil => rfl
  | cons l ls ih =>
    rw [relScan_cons, relStep_absent hR (h l (by simp))]
    rw [ih (fun x hx => h x (by simp [hx]))]

/-- C8: a requested release name that never occurs as the value of a
`- name:` line produces no edits: the whole buffer is returned
unchanged (and the engine, a total function, reports no error). -/
theorem c8_absent_release_is_noop (input : Str) (relName newVer : Str)
    (h : ∀ l ∈ splitNl input, ¬ relOpens relName l) :
    updateFileText input [(relName, newVer)] [] = input := by
  unfold updateFileText updateFileLines
  rw [show anchorPasses [] = fun ls => ls from rfl]
  rw [show relPasses [(relName, newVer)] (splitNl input) =
      relPass relName newVer (splitNl input) from rfl]
  rw [relPass, relScan_absent rfl h]
  exact joinNl_splitNl input

/-- Witness for C8: the release `zzz` is absent from a concrete
document, which passes through unchanged. -/
theorem c8_absent_release_is_noop_witness :
    updateFileText "- name: app\n  chart:\n    version: 1.0.0".toList
        [("zzz".toList, "2.0.0".toList)] [] =
      "- name: app\n  chart:\n    version: 1.0.0".toList :=
  c8_absent_release_is_noop _ _ _ (by decide)

/-! ## Idempotence (claim C2) -/

/-- The value the engine extracts from a `version:` line (including, by
construction, any trailing comment text: the comment is never cut off
`origVal`, `controller-helmwave.go:139`). -/
def extractedValOf (l : Str) : Str :=
  origValOf (afterOf (trimSpaceG l))

/-- C2 counterexample: patching with the release's current version
`1.2.3` is not byte-identical when the matched `version:` line carries a
trailing comment, because the engine's extracted value retains the
comment text (`1.2.3  # note`), never equals `1.2.3`, and the line is
rewritten in normalized form (the double space before `#` collapses). -/
theorem c2_counterexample :
    updateFileText "- name: app\n  chart:\n    version: 1.2.3  # note".toList
        [("app".toList, "1.2.3".toList)] [] ≠
      "- name: app\n  chart:\n    version: 1.2.3  # note".toList := by
  decide

theorem relStep_keep {k v : Str} {s : RState} {l : Str}
    (h : startsWith verKey (trimSpaceG l) = true → extractedValOf l = v) :
    (relStep k v s l).2 = l := by
  unfold relStep
  dsimp only
  simp only [apply_ite (Prod.snd (α := RState) (β := Str))]
  split
  · split
    · rfl
    · split
      · rfl
      · rfl
  · split
    · rfl
    · split
      · rfl
      · split
        · split
          · rfl
          · split
            · split
              · rfl
              · rename_i hnotname hrel hnotchart hin hnotclose hver hnotorig
                exact absurd (h hver) hnotorig
            · rfl
        · rfl

theorem anchorStep_keep {k v : Str} {s : AState} {l : Str}
    (h : startsWith verKey (trimSpaceG l) = true → extractedValOf l = v) :
    (anchorStep k v s l).2 = l := by
  unfold anchorStep
  dsimp only
  simp only [apply_ite (Prod.snd (α := AState) (β := Str))]
  split
  · rfl
  · split
    · split
      · rfl
      · split
        · rfl
        · split
          · split
            · rfl
            · split
              · rfl
              · split
                · split
                  · split
                    · rfl
                    · rename_i hnotdot hanch hnotexit hnotchart hin hnotclose hnotname hver hfound hnotorig
                      exact absurd (h hver) hnotorig
                  · rfl
                · rfl
          · rfl
    · rfl

theorem relScan_keep {k v : Str} {s : RState} {ls : List Str}
    (h : ∀ l ∈ ls, startsWith verKey (trimSpaceG l) = true →
      extractedValOf l = v) : relScan k v s ls = ls := by
  induction ls generalizing s with
  | nil => rfl
  | cons l ls ih =>
    rw [relScan_cons, relStep_keep (h l (by simp))]
    rw [ih (fun x hx => h x (by simp [hx]))]

theorem anchorScan_keep {k v : Str} {s : AState} {ls : List Str}
    (h : ∀ l ∈ ls, startsWith verKey (trimSpaceG l) = true →
      extractedValOf l = v) : anchorScan k v s ls = ls := by
  induction ls generalizing s with
  | nil => rfl
  | cons l ls ih =>
    rw [anchorScan_cons, anchorStep_keep (h l (by simp))]
    rw [ih (fun x hx => h x (by simp [hx]))]

theorem relPasses_keep {m : List (Str × Str)} {ls : List Str}
    (h : ∀ kv ∈ m, ∀ l ∈ ls, startsWith verKey (trimSpaceG l) = true →
      extractedValOf l = kv.2) : relPasses m ls = ls := by
  induction m with
  | nil => rfl
  | cons kv rest ih =>
    rcases kv with ⟨k, v⟩
    rw [relPasses, relPass, relScan_keep (h (k, v) (by simp))]
    exact ih (fun x hx => h x (by simp [hx]))

theorem anchorPasses_keep {m : List (Str × Str)} {ls : List Str}
    (h : ∀ kv ∈ m, ∀ l ∈ ls, startsWith verKey (trimSpaceG l) = true →
      extractedValOf l = kv.2) : anchorPasses m ls = ls := by
  induction m with
  | nil => rfl
  | cons kv rest ih =>
    rcases kv with ⟨k, v⟩
    rw [anchorPasses, anchorPass, anchorScan_keep (h (k, v) (by simp))]
    exact ih (fun x hx => h x (by simp [hx]))

/-- C2 amended: the patch engine is idempotent with respect to the
values it itself extracts.  If every requested version (release- or
chart-keyed) equals the engine-extracted value of every `version:` line
of the document -- where the extracted value retains any trailing
comment text, so for a commented line it is not the bare scalar -- then
the output is byte-identical to the input; in particular a matched
`version:` line whose extracted value equals the desired version is
left unchanged. -/
theorem c2_amended_idempotence (input : Str) (m1 m2 : List (Str × Str))
    (h1 : ∀ kv ∈ m1, ∀ l ∈ splitNl input,
      startsWith verKey (trimSpaceG l) = true → extractedValOf l = kv.2)
    (h2 : ∀ kv ∈ m2, ∀ l ∈ splitNl input,
      startsWith verKey (trimSpaceG l) = true → extractedValOf l = kv.2) :
    updateFileText input m1 m2 = input := by
  unfold updateFileText updateFileLines
  rw [relPasses_keep h1, anchorPasses_keep h2]
  exact joinNl_splitNl input

/-- Witness for the amended C2: a document whose quoted version value
equals the mapped value passes through byte-identically. -/
theorem c2_amended_idempotence_witness :
    updateFileText "- name: app\n  chart:\n    version: \"1.2.3\"".toList
        [("app".toList, "1.2.3".toList)] [] =
      "- name: app\n  chart:\n    version: \"1.2.3\"".toList :=
  c2_amended_idempotence _ _ _ (by decide) (by decide)

/-! ## Quote and comment preservation (claim C1) -/

theorem relScan_nil (k v : Str) (s : RState) : relScan k v s [] = [] := rfl

theorem anchorScan_nil (k v : Str) (s : AState) :
    anchorScan k v s [] = [] := rfl

theorem relPasses_cons (k v : Str) (m : List (Str × Str)) (ls : List Str) :
    relPasses ((k, v) :: m) ls = relPasses m (relPass k v ls) := rfl

theorem anchorPasses_cons (k v : Str) (m : List (Str × Str)) (ls : List Str) :
    anchorPasses ((k, v) :: m) ls = anchorPasses m (anchorPass k v ls) := rfl

theorem nlFree_repl_append {q : Str} (h : ¬ '\n' ∈ q) (k : Nat) :
    ¬ '\n' ∈ List.replicate k ' ' ++ q := by
  intro hx
  rcases List.mem_append.1 hx with h1 | h1
  · rw [List.mem_replicate] at h1
    exact absurd h1.2 (by decide)
  · exact h h1

/-- C1: patching the release `app` to `2.0.0` rewrites a matched
`version: "1.2.3" # pinned` line (at any indentation) to
`version: "2.0.0" # pinned` -- indentation, double quotes and trailing
comment retained -- and rewrites a matched unquoted `version: 1.2.3`
line to `version: 2.0.0`, introducing no quotes. -/
theorem c1_quote_comment_preservation (k : Nat) :
    (updateFileText (joinNl ["- name: app".toList, "  chart:".toList,
          List.replicate k ' ' ++ "version: \"1.2.3\" # pinned".toList])
        [("app".toList, "2.0.0".toList)] [] =
      joinNl ["- name: app".toList, "  chart:".toList,
          List.replicate k ' ' ++ "version: \"2.0.0\" # pinned".toList]) ∧
    (updateFileText (joinNl ["- name: app".toList, "  chart:".toList,
          List.replicate k ' ' ++ "version: 1.2.3".toList])
        [("app".toList, "2.0.0".toList)] [] =
      joinNl ["- name: app".toList, "  chart:".toList,
          List.replicate k ' ' ++ "version: 2.0.0".toList]) := by
  constructor
  · unfold updateFileText updateFileLines
    rw [splitNl_joinNl (by simp) (by
      intro l hl
      rcases List.mem_cons.1 hl with h | h
      · rw [h]; decide
      · rcases List.mem_cons.1 h with h1 | h1
        · rw [h1]; decide
        · rw [List.mem_singleton.1 h1]
          exact nlFree_repl_append (by decide) k)]
    rw [relPasses_cons, show relPasses [] = fun ls => ls from rfl,
      show anchorPasses [] = fun ls => ls from rfl]
    rw [relPass]
    have e1 : relStep "app".toList "2.0.0".toList ⟨false, false, 0⟩
        "- name: app".toList = (⟨true, false, 0⟩, "- name: app".toList) := by
      decide
    have e2 : relStep "app".toList "2.0.0".toList ⟨true, false, 0⟩
        "  chart:".toList = (⟨true, true, 2⟩, "  chart:".toList) := by
      decide
    have e3 : relStep "app".toList "2.0.0".toList ⟨true, true, 2⟩
        (List.replicate k ' ' ++ "version: \"1.2.3\" # pinned".toList) =
        (⟨false, false, 2⟩,
          List.replicate k ' ' ++ "version: \"2.0.0\" # pinned".toList) := by
      have htr : trimSpaceG
          (List.replicate k ' ' ++ "version: \"1.2.3\" # pinned".toList) =
          "version: \"1.2.3\" # pinned".toList := by
        rw [trimSpaceG_replicate_append]
        decide
      have hio : indentOf
          (List.replicate k ' ' ++ "version: \"1.2.3\" # pinned".toList) = k := by
        rw [indentOf_replicate_append,
          show indentOf "version: \"1.2.3\" # pinned".toList = 0 from by decide,
          Nat.add_zero]
      have h5 : rebuiltLine k "2.0.0".toList
          (afterOf "version: \"1.2.3\" # pinned".toList) =
          List.replicate k ' ' ++ "version: \"2.0.0\" # pinned".toList := by
        unfold rebuiltLine
        dsimp only
        rw [show (hasChar '"' (afterOf "version: \"1.2.3\" # pinned".toList) ||
            hasChar '\'' (afterOf "version: \"1.2.3\" # pinned".toList)) =
            true from by decide]
        simp only [if_true, List.append_assoc, ite_true]
        exact congrArg (List.replicate k ' ' ++ ·) (by decide)
      simp only [relStep, htr, hio, h5,
        show startsWith nameKeyRel "version: \"1.2.3\" # pinned".toList =
          false from by decide,
        show startsWith verKey "version: \"1.2.3\" # pinned".toList =
          true from by decide,
        show ("version: \"1.2.3\" # pinned".toList = chartKey) = False from by
          simp only [eq_iff_iff, iff_false]; decide,
        show (origValOf (afterOf "version: \"1.2.3\" # pinned".toList) =
            "2.0.0".toList) = False from by
          simp only [eq_iff_iff, iff_false]; decide,
        Bool.false_eq_true, Bool.true_eq_false, if_false, if_true, ite_false,
        ite_true, and_false, false_and]
    simp only [relScan_cons, e1, e2, e3, relScan_nil]
  · unfold updateFileText updateFileLines
    rw [splitNl_joinNl (by simp) (by
      intro l hl
      rcases List.mem_cons.1 hl with h | h
      · rw [h]; decide
      · rcases List.mem_cons.1 h with h1 | h1
        · rw [h1]; decide
        · rw [List.mem_singleton.1 h1]
          exact nlFree_repl_append (by decide) k)]
    rw [relPasses_cons, show relPasses [] = fun ls => ls from rfl,
      show anchorPasses [] = fun ls => ls from rfl]
    rw [relPass]
    have e1 : relStep "app".toList "2.0.0".toList ⟨false, false, 0⟩
        "- name: app".toList = (⟨true, false, 0⟩, "- name: app".toList) := by
      decide
    have e2 : relStep "app".toList "2.0.0".toList ⟨true, false, 0⟩
        "  chart:".toList = (⟨true, true, 2⟩, "  chart:".toList) := by
      decide
    have e3 : relStep "app".toList "2.0.0".toList ⟨true, true, 2⟩
        (List.replicate k ' ' ++ "version: 1.2.3".toList) =
        (⟨false, false, 2⟩,
          List.replicate k ' ' ++ "version: 2.0.0".toList) := by
      rw [show ("version: 1.2.3".toList : Str) =
        verKeySp ++ "1.2.3".toList from rfl]
      rw [relStep_verLine _ _ _ _ _ rfl rfl (by constructor <;> decide)]
      rfl
    simp only [relScan_cons, e1, e2, e3, relScan_nil]

/-! ## Duplicate release occurrences (claim C5) -/

theorem plainTok.nlFree {l : Str} (h : plainTok l) : ¬ '\n' ∈ l := by
  intro hx
  have := h.nonWs '\n' hx
  rw [show isSpaceC '\n' = true from by decide] at this
  cases this

/-- C5: a document with two `- name: app` sequence items, each with its
own `chart:` block and `version:` line (any plain current values),
has both `version:` lines set to `3.0.0` when the release mapping
carries `app -> 3.0.0`: scanning continues after the first edit. -/
theorem c5_duplicate_occurrences (v1 v2 : Str)
    (h1 : plainTok v1) (h2 : plainTok v2) :
    updateFileText (joinNl ["- name: app".toList, "  chart:".toList,
        "    version: ".toList ++ v1, "- name: app".toList,
        "  chart:".toList, "    version: ".toList ++ v2])
      [("app".toList, "3.0.0".toList)] [] =
    joinNl ["- name: app".toList, "  chart:".toList,
        "    version: 3.0.0".toList, "- name: app".toList,
        "  chart:".toList, "    version: 3.0.0".toList] := by
  unfold updateFileText updateFileLines
  rw [splitNl_joinNl (by simp) (by
    intro l hl
    simp only [List.mem_cons, List.not_mem_nil, or_false] at hl
    rcases hl with h | h | h | h | h | h
    · rw [h]; decide
    · rw [h]; decide
    · rw [h]
      intro hx
      rcases List.mem_append.1 hx with hy | hy
      · revert hy; decide
      · exact h1.nlFree hy
    · rw [h]; decide
    · rw [h]; decide
    · rw [h]
      intro hx
      rcases List.mem_append.1 hx with hy | hy
      · revert hy; decide
      · exact h2.nlFree hy)]
  rw [relPasses_cons, show relPasses [] = fun ls => ls from rfl,
    show anchorPasses [] = fun ls => ls from rfl]
  rw [relPass]
  have e1 : relStep "app".toList "3.0.0".toList ⟨false, false, 0⟩
      "- name: app".toList = (⟨true, false, 0⟩, "- name: app".toList) := by
    decide
  have e2 : relStep "app".toList "3.0.0".toList ⟨true, false, 0⟩
      "  chart:".toList = (⟨true, true, 2⟩, "  chart:".toList) := by
    decide
  have e3 : relStep "app".toList "3.0.0".toList ⟨true, true, 2⟩
      ("    version: ".toList ++ v1) =
      (⟨false, false, 2⟩, "    version: 3.0.0".toList) := by
    rw [show ("    version: ".toList : Str) ++ v1 =
      List.replicate 4 ' ' ++ (verKeySp ++ v1) from rfl]
    rw [relStep_verLine _ _ _ _ _ rfl rfl h1]
    rfl
  have e4 : relStep "app".toList "3.0.0".toList ⟨false, false, 2⟩
      "- name: app".toList = (⟨true, false, 2⟩, "- name: app".toList) := by
    decide
  have e5 : relStep "app".toList "3.0.0".toList ⟨true, false, 2⟩
      "  chart:".toList = (⟨true, true, 2⟩, "  chart:".toList) := by
    decide
  have e6 : relStep "app".toList "3.0.0".toList ⟨true, true, 2⟩
      ("    version: ".toList ++ v2) =
      (⟨false, false, 2⟩, "    version: 3.0.0".toList) := by
    rw [show ("    version: ".toList : Str) ++ v2 =
      List.replicate 4 ' ' ++ (verKeySp ++ v2) from rfl]
    rw [relStep_verLine _ _ _ _ _ rfl rfl h2]
    rfl
  simp only [relScan_cons, e1, e2, e3, e4, e5, e6, relScan_nil]

/-- Witness for C5 at concrete current versions. -/
theorem c5_duplicate_occurrences_witness :
    updateFileText (joinNl ["- name: app".toList, "  chart:".toList,
        "    version: ".toList ++ "1.0.0".toList, "- name: app".toList,
        "  chart:".toList, "    version: ".toList ++ "1.1.0".toList])
      [("app".toList, "3.0.0".toList)] [] =
    joinNl ["- name: app".toList, "  chart:".toList,
        "    version: 3.0.0".toList, "- name: app".toList,
        "  chart:".toList, "    version: 3.0.0".toList] :=
  c5_duplicate_occurrences "1.0.0".toList "1.1.0".toList
    (by constructor <;> decide) (by constructor <;> decide)

/-! ## Anchor targeting (claim C6) -/

/-- C6 counterexample: with two adjacent dot-prefixed anchor blocks
(no separator line between them), requesting the chart identity
recorded in the second anchor rewrites nothing at all: the line that
opens the second anchor is consumed by the first anchor's exit branch
(`continue`), so the second anchor never opens and its `version:` line
is not rewritten, contradicting the claim that the matching anchor's
`version:` line is rewritten. -/
theorem c6_counterexample :
    updateFileText
        ".a1:\n  chart:\n    name: ra\n    version: 1.0.0\n.a2:\n  chart:\n    name: rb\n    version: 2.0.0".toList
        [] [("rb".toList, "9.9.9".toList)] =
      ".a1:\n  chart:\n    name: ra\n    version: 1.0.0\n.a2:\n  chart:\n    name: rb\n    version: 2.0.0".toList := by
  decide

/-- C6 amended: with two dot-prefixed anchor blocks, each carrying its
own `chart:` block with distinct recorded names, and each anchor block
closed before the next one opens (here by a blank separator line),
requesting a patch for either chart identity rewrites the `version:`
line only in the anchor whose recorded `name:` equals the requested
identity; the other anchor's `version:` line is untouched even though a
Chart scope is open there. -/
theorem c6_amended_anchor_targeting (n1 n2 v1 v2 w : Str)
    (hn1 : plainTok n1) (hn2 : plainTok n2) (hv1 : plainTok v1)
    (hv2 : plainTok v2) (hne : n1 ≠ n2) :
    (updateFileText (joinNl [".opt1:".toList, "  chart:".toList,
          "    name: ".toList ++ n1, "    version: ".toList ++ v1, [],
          ".opt2:".toList, "  chart:".toList,
          "    name: ".toList ++ n2, "    version: ".toList ++ v2])
        [] [(n1, w)] =
      joinNl [".opt1:".toList, "  chart:".toList,
          "    name: ".toList ++ n1, "    version: ".toList ++ w, [],
          ".opt2:".toList, "  chart:".toList,
          "    name: ".toList ++ n2, "    version: ".toList ++ v2]) ∧
    (updateFileText (joinNl [".opt1:".toList, "  chart:".toList,
          "    name: ".toList ++ n1, "    version: ".toList ++ v1, [],
          ".opt2:".toList, "  chart:".toList,
          "    name: ".toList ++ n2, "    version: ".toList ++ v2])
        [] [(n2, w)] =
      joinNl [".opt1:".toList, "  chart:".toList,
          "    name: ".toList ++ n1, "    version: ".toList ++ v1, [],
          ".opt2:".toList, "  chart:".toList,
          "    name: ".toList ++ n2, "    version: ".toList ++ w]) := by
  have hsplit : splitNl (joinNl [".opt1:".toList, "  chart:".toList,
      "    name: ".toList ++ n1, "    version: ".toList ++ v1, [],
      ".opt2:".toList, "  chart:".toList,
      "    name: ".toList ++ n2, "    version: ".toList ++ v2]) =
      [".opt1:".toList, "  chart:".toList,
      "    name: ".toList ++ n1, "    version: ".toList ++ v1, [],
      ".opt2:".toList, "  chart:".toList,
      "    name: ".toList ++ n2, "    version: ".toList ++ v2] := by
    apply splitNl_joinNl (by simp)
    intro l hl
    simp only [List.mem_cons, List.not_mem_nil, or_false] at hl
    rcases hl with h | h | h | h | h | h | h | h | h
    · rw [h]; decide
    · rw [h]; decide
    · rw [h]
      intro hx
      rcases List.mem_append.1 hx with hy | hy
      · revert hy; decide
      · exact hn1.nlFree hy
    · rw [h]
      intro hx
      rcases List.mem_append.1 hx with hy | hy
      · revert hy; decide
      · exact hv1.nlFree hy
    · rw [h]; decide
    · rw [h]; decide
    · rw [h]; decide
    · rw [h]
      intro hx
      rcases List.mem_append.1 hx with hy | hy
      · revert hy; decide
      · exact hn2.nlFree hy
    · rw [h]
      intro hx
      rcases List.mem_append.1 hx with hy | hy
      · revert hy; decide
      · exact hv2.nlFree hy
  constructor
  · unfold updateFileText updateFileLines
    rw [hsplit, show relPasses [] = fun ls => ls from rfl,
      anchorPasses_cons, show anchorPasses [] = fun ls => ls from rfl,
      anchorPass]
    have e1 : anchorStep n1 w ⟨false, false, 0, []⟩ ".opt1:".toList =
        (⟨true, false, 0, []⟩, ".opt1:".toList) := by
      rw [anchorStep_dot _ _ _ _ rfl (by decide) (by decide)]
      rfl
    have e2 : anchorStep n1 w ⟨true, false, 0, []⟩ "  chart:".toList =
        (⟨true, true, 0, []⟩, "  chart:".toList) := by
      rw [show ("  chart:".toList : Str) = List.replicate 2 ' ' ++ chartKey
        from rfl]
      rw [anchorStep_chart _ _ _ _ rfl]
    have e3 : anchorStep n1 w ⟨true, true, 0, []⟩
        ("    name: ".toList ++ n1) =
        (⟨true, true, 0, n1⟩, "    name: ".toList ++ n1) := by
      rw [show ("    name: ".toList : Str) ++ n1 =
        List.replicate 4 ' ' ++ ("name: ".toList ++ n1) from rfl]
      rw [anchorStep_name _ _ _ _ _ rfl rfl (by decide) hn1]
    have e4 : anchorStep n1 w ⟨true, true, 0, n1⟩
        ("    version: ".toList ++ v1) =
        (⟨false, false, 0, []⟩, "    version: ".toList ++ w) := by
      rw [show ("    version: ".toList : Str) ++ v1 =
        List.replicate 4 ' ' ++ (verKeySp ++ v1) from rfl]
      rw [anchorStep_ver _ _ _ _ _ rfl rfl (by decide : ¬(4:Nat) ≤ 0) hv1, if_pos rfl]
      rfl
    have e5 : anchorStep n1 w ⟨false, false, 0, []⟩ ([] : Str) =
        (⟨false, false, 0, []⟩, ([] : Str)) := by
      rw [anchorStep_out _ _ _ _ rfl (by decide)]
    have e6 : anchorStep n1 w ⟨false, false, 0, []⟩ ".opt2:".toList =
        (⟨true, false, 0, []⟩, ".opt2:".toList) := by
      rw [anchorStep_dot _ _ _ _ rfl (by decide) (by decide)]
      rfl
    have e7 : anchorStep n1 w ⟨true, false, 0, []⟩ "  chart:".toList =
        (⟨true, true, 0, []⟩, "  chart:".toList) := by
      rw [show ("  chart:".toList : Str) = List.replicate 2 ' ' ++ chartKey
        from rfl]
      rw [anchorStep_chart _ _ _ _ rfl]
    have e8 : anchorStep n1 w ⟨true, true, 0, []⟩
        ("    name: ".toList ++ n2) =
        (⟨true, true, 0, n2⟩, "    name: ".toList ++ n2) := by
      rw [show ("    name: ".toList : Str) ++ n2 =
        List.replicate 4 ' ' ++ ("name: ".toList ++ n2) from rfl]
      rw [anchorStep_name _ _ _ _ _ rfl rfl (by decide) hn2]
    have e9 : anchorStep n1 w ⟨true, true, 0, n2⟩
        ("    version: ".toList ++ v2) =
        (⟨true, true, 0, n2⟩, "    version: ".toList ++ v2) := by
      rw [show ("    version: ".toList : Str) ++ v2 =
        List.replicate 4 ' ' ++ (verKeySp ++ v2) from rfl]
      rw [anchorStep_ver _ _ _ _ _ rfl rfl (by decide : ¬(4:Nat) ≤ 0) hv2,
        if_neg (fun hx => hne hx.symm)]
    simp only [anchorScan_cons, e1, e2, e3, e4, e5, e6, e7, e8, e9,
      anchorScan_nil]
  · unfold updateFileText updateFileLines
    rw [hsplit, show relPasses [] = fun ls => ls from rfl,
      anchorPasses_cons, show anchorPasses [] = fun ls => ls from rfl,
      anchorPass]
    have e1 : anchorStep n2 w ⟨false, false, 0, []⟩ ".opt1:".toList =
        (⟨true, false, 0, []⟩, ".opt1:".toList) := by
      rw [anchorStep_dot _ _ _ _ rfl (by decide) (by decide)]
      rfl
    have e2 : anchorStep n2 w ⟨true, false, 0, []⟩ "  chart:".toList =
        (⟨true, true, 0, []⟩, "  chart:".toList) := by
      rw [show ("  chart:".toList : Str) = List.replicate 2 ' ' ++ chartKey
        from rfl]
      rw [anchorStep_chart _ _ _ _ rfl]
    have e3 : anchorStep n2 w ⟨true, true, 0, []⟩
        ("    name: ".toList ++ n1) =
        (⟨true, true, 0, n1⟩, "    name: ".toList ++ n1) := by
      rw [show ("    name: ".toList : Str) ++ n1 =
        List.replicate 4 ' ' ++ ("name: ".toList ++ n1) from rfl]
      rw [anchorStep_name _ _ _ _ _ rfl rfl (by decide) hn1]
    have e4 : anchorStep n2 w ⟨true, true, 0, n1⟩
        ("    version: ".toList ++ v1) =
        (⟨true, true, 0, n1⟩, "    version: ".toList ++ v1) := by
      rw [show ("    version: ".toList : Str) ++ v1 =
        List.replicate 4 ' ' ++ (verKeySp ++ v1) from rfl]
      rw [anchorStep_ver _ _ _ _ _ rfl rfl (by decide : ¬(4:Nat) ≤ 0) hv1, if_neg hne]
    have e5 : anchorStep n2 w ⟨true, true, 0, n1⟩ ([] : Str) =
        (⟨false, false, 0, []⟩, ([] : Str)) := by
      rw [anchorStep_blank _ _ _ rfl]
    have e6 : anchorStep n2 w ⟨false, false, 0, []⟩ ".opt2:".toList =
        (⟨true, false, 0, []⟩, ".opt2:".toList) := by
      rw [anchorStep_dot _ _ _ _ rfl (by decide) (by decide)]
      rfl
    have e7 : anchorStep n2 w ⟨true, false, 0, []⟩ "  chart:".toList =
        (⟨true, true, 0, []⟩, "  chart:".toList) := by
      rw [show ("  chart:".toList : Str) = List.replicate 2 ' ' ++ chartKey
        from rfl]
      rw [anchorStep_chart _ _ _ _ rfl]
    have e8 : anchorStep n2 w ⟨true, true, 0, []⟩
        ("    name: ".toList ++ n2) =
        (⟨true, true, 0, n2⟩, "    name: ".toList ++ n2) := by
      rw [show ("    name: ".toList : Str) ++ n2 =
        List.replicate 4 ' ' ++ ("name: ".toList ++ n2) from rfl]
      rw [anchorStep_name _ _ _ _ _ rfl rfl (by decide) hn2]
    have e9 : anchorStep n2 w ⟨true, true, 0, n2⟩
        ("    version: ".toList ++ v2) =
        (⟨false, false, 0, []⟩, "    version: ".toList ++ w) := by
      rw [show ("    version: ".toList : Str) ++ v2 =
        List.replicate 4 ' ' ++ (verKeySp ++ v2) from rfl]
      rw [anchorStep_ver _ _ _ _ _ rfl rfl (by decide : ¬(4:Nat) ≤ 0) hv2, if_pos rfl]
      rfl
    simp only [anchorScan_cons, e1, e2, e3, e4, e5, e6, e7, e8, e9,
      anchorScan_nil]

/-- Witness for the amended C6 at concrete names and versions. -/
theorem c6_amended_anchor_targeting_witness :
    (updateFileText (joinNl [".opt1:".toList, "  chart:".toList,
          "    name: ".toList ++ "repo/a".toList,
          "    version: ".toList ++ "1.0.0".toList, [],
          ".opt2:".toList, "  chart:".toList,
          "    name: ".toList ++ "repo/b".toList,
          "    version: ".toList ++ "2.0.0".toList])
        [] [("repo/a".toList, "9.9.9".toList)] =
      joinNl [".opt1:".toList, "  chart:".toList,
          "    name: ".toList ++ "repo/a".toList,
          "    version: ".toList ++ "9.9.9".toList, [],
          ".opt2:".toList, "  chart:".toList,
          "    name: ".toList ++ "repo/b".toList,
          "    version: ".toList ++ "2.0.0".toList]) ∧
    (updateFileText (joinNl [".opt1:".toList, "  chart:".toList,
          "    name: ".toList ++ "repo/a".toList,
          "    version: ".toList ++ "1.0.0".toList, [],
          ".opt2:".toList, "  chart:".toList,
          "    name: ".toList ++ "repo/b".toList,
          "    version: ".toList ++ "2.0.0".toList])
        [] [("repo/b".toList, "9.9.9".toList)] =
      joinNl [".opt1:".toList, "  chart:".toList,
          "    name: ".toList ++ "repo/a".toList,
          "    version: ".toList ++ "1.0.0".toList, [],
          ".opt2:".toList, "  chart:".toList,
          "    name: ".toList ++ "repo/b".toList,
          "    version: ".toList ++ "9.9.9".toList]) :=
  c6_amended_anchor_targeting "repo/a".toList "repo/b".toList
    "1.0.0".toList "2.0.0".toList "9.9.9".toList
    (by constructor <;> decide) (by constructor <;> decide)
    (by constructor <;> decide) (by constructor <;> decide) (by decide)

/-! ## Section stripping (claim C7) -/

theorem stripScan_cons_false (sect l : Str) (ls : List Str) (si : Nat) :
    stripScan sect false si (l :: ls) =
      if startsWith (sect ++ [':']) (trimSpaceG l) = true then
        stripScan sect true (indentOf l) ls
      else l :: stripScan sect false si ls := rfl

theorem stripScan_cons_true (sect l : Str) (ls : List Str) (si : Nat) :
    stripScan sect true si (l :: ls) =
      if trimSpaceG l = [] then stripScan sect true si ls
      else if si < indentOf l then stripScan sect true si ls
      else l :: stripScan sect false si ls := rfl

theorem stripScan_noTrig {sect : Str} {ls : List Str} (si : Nat)
    (h : ∀ l ∈ ls, startsWith (sect ++ [':']) (trimSpaceG l) = false) :
    stripScan sect false si ls = ls := by
  induction ls with
  | nil => rfl
  | cons l ls ih =>
    rw [stripScan_cons_false, if_neg (by rw [h l (by simp)]; simp)]
    rw [ih (fun x hx => h x (by simp [hx]))]

theorem stripScan_app_noTrig {sect : Str} {A : List Str} (rest : List Str)
    (si : Nat)
    (hA : ∀ a ∈ A, startsWith (sect ++ [':']) (trimSpaceG a) = false) :
    stripScan sect false si (A ++ rest) = A ++ stripScan sect false si rest := by
  induction A with
  | nil => rfl
  | cons a A ih =>
    rw [List.cons_append, stripScan_cons_false,
      if_neg (by rw [hA a (by simp)]; simp)]
    rw [ih (fun x hx => hA x (by simp [hx]))]
    rfl

theorem stripScan_skipB {sect : Str} {B : List Str} (rest : List Str)
    (si : Nat)
    (hB : ∀ b ∈ B, trimSpaceG b = [] ∨ si < indentOf b) :
    stripScan sect true si (B ++ rest) = stripScan sect true si rest := by
  induction B with
  | nil => rfl
  | cons b B ih =>
    rw [List.cons_append, stripScan_cons_true]
    by_cases hbl : trimSpaceG b = []
    · rw [if_pos hbl]
      exact ih (fun x hx => hB x (by simp [hx]))
    · rw [if_neg hbl]
      rcases hB b (by simp) with h | h
      · exact absurd h hbl
      · rw [if_pos h]
        exact ih (fun x hx => hB x (by simp [hx]))

/-- C7: `removeTopLevelSection` returns the text unchanged when no line
triggers the section header test; and on a text of the form
`A ++ [header] ++ B ++ C` -- where no line of `A` triggers, `header`
triggers at indent `I`, every line of the block `B` is blank or more
indented than `I`, and `C` is empty or starts with a non-blank line at
indent at most `I` and contains no further trigger -- it removes
exactly the header and the block `B` (blank lines of the skipped region
included), leaving `A` and `C` untouched. -/
theorem c7_strip_section (sect : Str) :
    (∀ input : Str,
      (∀ l ∈ splitNl input,
        startsWith (sect ++ [':']) (trimSpaceG l) = false) →
      removeTopLevelSection input sect = input) ∧
    (∀ (A : List Str) (hdr : Str) (B C : List Str),
      (∀ l ∈ A ++ hdr :: (B ++ C), ¬ '\n' ∈ l) →
      (∀ a ∈ A, startsWith (sect ++ [':']) (trimSpaceG a) = false) →
      startsWith (sect ++ [':']) (trimSpaceG hdr) = true →
      (∀ b ∈ B, trimSpaceG b = [] ∨ indentOf hdr < indentOf b) →
      (C = [] ∨ (∃ c0 C2, C = c0 :: C2 ∧ trimSpaceG c0 ≠ [] ∧
        indentOf c0 ≤ indentOf hdr ∧
        (∀ c ∈ C, startsWith (sect ++ [':']) (trimSpaceG c) = false))) →
      removeTopLevelSection (joinNl (A ++ hdr :: (B ++ C))) sect =
        joinNl (A ++ C)) := by
  constructor
  · intro input habs
    unfold removeTopLevelSection
    rw [stripScan_noTrig 0 habs]
    exact joinNl_splitNl input
  · intro A hdr B C hnl hA hh hB hC
    unfold removeTopLevelSection
    rw [splitNl_joinNl (by simp) hnl]
    rw [stripScan_app_noTrig _ 0 hA]
    rw [stripScan_cons_false, if_pos hh]
    rw [stripScan_skipB _ _ hB]
    rcases hC with hC | ⟨c0, C2, hCeq, hcb, hci, hcn⟩
    · rw [hC]
      rfl
    · rw [hCeq, stripScan_cons_true, if_neg hcb,
        if_neg (by exact fun hx => absurd hci (by omega))]
      rw [stripScan_noTrig _ (fun x hx => hcn x (by simp [hCeq, hx]))]

/-- Witness for C7: an absent section passes through; a present section
block is removed exactly. -/
theorem c7_strip_section_witness :
    removeTopLevelSection "a: 1\nb: 2".toList "repositories".toList =
        "a: 1\nb: 2".toList ∧
    removeTopLevelSection
        (joinNl ["a: 1".toList, "repositories:".toList, "  - x".toList,
          "  - y".toList, "b: 2".toList])
        "repositories".toList =
      joinNl ["a: 1".toList, "b: 2".toList] :=
  ⟨(c7_strip_section "repositories".toList).1 _ (by decide),
    (c7_strip_section "repositories".toList).2 ["a: 1".toList]
      "repositories:".toList ["  - x".toList, "  - y".toList]
      ["b: 2".toList] (by decide) (by decide) (by decide) (by decide)
      (Or.inr ⟨"b: 2".toList, [], rfl, by decide, by decide, by decide⟩)⟩

/-! ## Scope closing discipline (claim C4) -/

theorem startsWith_head_false {a b : Char} {p q l : Str} (hne : a ≠ b)
    (h : startsWith (a :: p) l = true) : startsWith (b :: q) l = false := by
  cases l with
  | nil => simp [startsWith] at h
  | cons c cs =>
    simp only [startsWith, Bool.and_eq_true, decide_eq_true_eq] at h
    simp only [startsWith, Bool.and_eq_false_iff]
    left
    simp only [decide_eq_false_iff_not]
    rw [← h.1]
    exact fun hx => hne hx.symm

theorem verPre_not_namePreRel {l : Str}
    (h : startsWith verKey (trimSpaceG l) = true) :
    startsWith nameKeyRel (trimSpaceG l) = false := by
  rw [show nameKeyRel = '-' :: " name:".toList from rfl]
  exact startsWith_head_false (by decide)
    (show startsWith ('v' :: "ersion:".toList) (trimSpaceG l) = true from h)

theorem verPre_not_namePreCh {l : Str}
    (h : startsWith verKey (trimSpaceG l) = true) :
    startsWith nameKeyCh (trimSpaceG l) = false := by
  rw [show nameKeyCh = 'n' :: "ame:".toList from rfl]
  exact startsWith_head_false (by decide)
    (show startsWith ('v' :: "ersion:".toList) (trimSpaceG l) = true from h)

theorem verPre_not_chartPre {l : Str}
    (h : startsWith verKey (trimSpaceG l) = true) :
    startsWith chartKey (trimSpaceG l) = false := by
  rw [show chartKey = 'c' :: "hart:".toList from rfl]
  exact startsWith_head_false (by decide)
    (show startsWith ('v' :: "ersion:".toList) (trimSpaceG l) = true from h)

theorem verPre_not_hashPre {l : Str}
    (h : startsWith verKey (trimSpaceG l) = true) :
    startsWith hashKey (trimSpaceG l) = false := by
  rw [show hashKey = '#' :: [] from rfl]
  exact startsWith_head_false (by decide)
    (show startsWith ('v' :: "ersion:".toList) (trimSpaceG l) = true from h)

theorem namePreCh_not_verPre {l : Str}
    (h : startsWith nameKeyCh (trimSpaceG l) = true) :
    startsWith verKey (trimSpaceG l) = false := by
  rw [show verKey = 'v' :: "ersion:".toList from rfl]
  exact startsWith_head_false (by decide)
    (show startsWith ('n' :: "ame:".toList) (trimSpaceG l) = true from h)

theorem chartPre_not_verPre {l : Str}
    (h : startsWith chartKey (trimSpaceG l) = true) :
    startsWith verKey (trimSpaceG l) = false := by
  rw [show verKey = 'v' :: "ersion:".toList from rfl]
  exact startsWith_head_false (by decide)
    (show startsWith ('c' :: "hart:".toList) (trimSpaceG l) = true from h)

theorem chartPre_not_namePreRel {l : Str}
    (h : startsWith chartKey (trimSpaceG l) = true) :
    startsWith nameKeyRel (trimSpaceG l) = false := by
  rw [show nameKeyRel = '-' :: " name:".toList from rfl]
  exact startsWith_head_false (by decide)
    (show startsWith ('c' :: "hart:".toList) (trimSpaceG l) = true from h)

theorem chartPre_not_namePreCh {l : Str}
    (h : startsWith chartKey (trimSpaceG l) = true) :
    startsWith nameKeyCh (trimSpaceG l) = false := by
  rw [show nameKeyCh = 'n' :: "ame:".toList from rfl]
  exact startsWith_head_false (by decide)
    (show startsWith ('c' :: "hart:".toList) (trimSpaceG l) = true from h)

theorem chartPre_not_dotPre {l : Str}
    (h : startsWith chartKey (trimSpaceG l) = true) :
    startsWith dotKey (trimSpaceG l) = false := by
  rw [show dotKey = '.' :: [] from rfl]
  exact startsWith_head_false (by decide)
    (show startsWith ('c' :: "hart:".toList) (trimSpaceG l) = true from h)

/-- Characterization of when a line closes the release pass's open
Chart scope. -/
theorem relChartCloseIff (k v : Str) (s : RState) (l : Str)
    (hR : s.inRelease = true) (hC : s.inChart = true) :
    ((relStep k v s l).1.inChart = false ↔
      (startsWith nameKeyRel (trimSpaceG l) = true ∨
       startsWith verKey (trimSpaceG l) = true ∨
       (trimSpaceG l ≠ chartKey ∧ indentOf l ≤ s.chartIndent))) := by
  rcases hstep : relStep k v s l with ⟨s2, l2⟩
  unfold relStep at hstep
  dsimp only at hstep
  split at hstep
  · rename_i hname
    split at hstep
    · injection hstep with ha hb
      rw [← ha]
      exact iff_of_true rfl (Or.inl hname)
    · injection hstep with ha hb
      rw [← ha]
      exact iff_of_true rfl (Or.inl hname)
  · rename_i hname
    split at hstep
    · rename_i hrelf
      rw [hR] at hrelf
      cases hrelf
    · split at hstep
      · rename_i hrelf hchart
        injection hstep with ha hb
        rw [← ha]
        refine iff_of_false (by simp) ?_
        intro hx
        rcases hx with hx | hx | hx
        · exact hname hx
        · rw [hchart, show startsWith verKey chartKey = false from by
            decide] at hx
          cases hx
        · exact hx.1 hchart
      · split at hstep
        · rename_i hrelf hchart hclose
          injection hstep with ha hb
          rw [← ha]
          exact iff_of_true rfl (Or.inr (Or.inr ⟨hchart, hclose.1⟩))
        · split at hstep
          · split at hstep
            · rename_i hrelf hchart hclose hver hov
              injection hstep with ha hb
              rw [← ha]
              exact iff_of_true rfl (Or.inr (Or.inl hver))
            · rename_i hrelf hchart hclose hver hov
              injection hstep with ha hb
              rw [← ha]
              exact iff_of_true rfl (Or.inr (Or.inl hver))
          · rename_i hrelf hchart hclose hver
            injection hstep with ha hb
            rw [← ha]
            refine iff_of_false (by rw [hC]; simp) ?_
            intro hx
            rcases hx with hx | hx | hx
            · exact hname hx
            · exact hver hx
            · exact hclose ⟨hx.2, by simpa using hver⟩

/-- Characterization of when a line closes the anchor pass's open
Chart scope: the indent tests compare against the anchor's opening
indent, not the chart line's. -/
theorem anchorChartCloseIff (k v : Str) (s : AState) (l : Str)
    (hA : s.inAnchor = true) (hC : s.inChart = true) :
    ((anchorStep k v s l).1.inChart = false ↔
      ((indentOf l ≤ s.anchorIndent ∧
          startsWith chartKey (trimSpaceG l) = false ∧
          startsWith hashKey (trimSpaceG l) = false) ∨
       (indentOf l ≤ s.anchorIndent ∧ trimSpaceG l ≠ chartKey ∧
          startsWith nameKeyCh (trimSpaceG l) = false ∧
          startsWith verKey (trimSpaceG l) = false) ∨
       (startsWith verKey (trimSpaceG l) = true ∧ s.foundChartName = k ∧
          ¬ indentOf l ≤ s.anchorIndent))) := by
  rcases hstep : anchorStep k v s l with ⟨s2, l2⟩
  unfold anchorStep at hstep
  dsimp only at hstep
  split at hstep
  · rename_i hdot
    rw [hA] at hdot
    rcases hdot with ⟨hx, _⟩
    cases hx
  · split at hstep
    · rename_i hexit
      injection hstep with ha hb
      rw [← ha]
      exact iff_of_true rfl (Or.inl hexit)
    · split at hstep
      · rename_i hexit hchart
        injection hstep with ha hb
        rw [← ha]
        refine iff_of_false (by simp) ?_
        intro hx
        rcases hx with hx | hx | hx
        · exact hexit hx
        · exact hx.2.1 hchart
        · rw [hchart, show startsWith verKey chartKey = false from by
            decide] at hx
          rcases hx with ⟨hx1, _⟩
          cases hx1
      · split at hstep
        · rename_i hexit hchart hclose
          injection hstep with ha hb
          rw [← ha]
          exact iff_of_true rfl
            (Or.inr (Or.inl ⟨hclose.1, hchart, hclose.2.1, hclose.2.2⟩))
        · split at hstep
          · rename_i hexit hchart hclose hname
            injection hstep with ha hb
            rw [← ha]
            refine iff_of_false (by rw [hC]; simp) ?_
            intro hx
            rcases hx with hx | hx | hx
            · exact hexit hx
            · rw [hname] at hx
              rcases hx with ⟨_, _, hx3, _⟩
              cases hx3
            · rw [namePreCh_not_verPre hname] at hx
              rcases hx with ⟨hx1, _⟩
              cases hx1
          · split at hstep
            · split at hstep
              · split at hstep
                · rename_i hexit hchart hclose hname hver hfound hov
                  injection hstep with ha hb
                  rw [← ha]
                  refine iff_of_true rfl (Or.inr (Or.inr ⟨hver, hfound, ?_⟩))
                  intro hle
                  exact hexit ⟨hle, verPre_not_chartPre hver,
                    verPre_not_hashPre hver⟩
                · rename_i hexit hchart hclose hname hver hfound hov
                  injection hstep with ha hb
                  rw [← ha]
                  refine iff_of_true rfl (Or.inr (Or.inr ⟨hver, hfound, ?_⟩))
                  intro hle
                  exact hexit ⟨hle, verPre_not_chartPre hver,
                    verPre_not_hashPre hver⟩
              · rename_i hexit hchart hclose hname hver hfound
                injection hstep with ha hb
                rw [← ha]
                refine iff_of_false (by rw [hC]; simp) ?_
                intro hx
                rcases hx with hx | hx | hx
                · exact hexit hx
                · rw [hver] at hx
                  rcases hx with ⟨_, _, _, hx4⟩
                  cases hx4
                · exact hfound hx.2.1
            · rename_i hexit hchart hclose hname hver
              injection hstep with ha hb
              rw [← ha]
              refine iff_of_false (by rw [hC]; simp) ?_
              intro hx
              rcases hx with hx | hx | hx
              · exact hexit hx
              · exact hclose ⟨hx.1, hx.2.2.1, hx.2.2.2⟩
              · exact hver hx.1

/-- A `chart:` line with an inline value never opens a Chart scope in
the release pass and is never patched. -/
theorem relStep_inline_chart (k v : Str) (s : RState) (l : Str)
    (hpre : startsWith chartKey (trimSpaceG l) = true)
    (hne : trimSpaceG l ≠ chartKey) :
    (s.inChart = false → (relStep k v s l).1.inChart = false) ∧
      (relStep k v s l).2 = l := by
  rcases hstep : relStep k v s l with ⟨s2, l2⟩
  unfold relStep at hstep
  dsimp only at hstep
  split at hstep
  · rename_i hname
    rw [chartPre_not_namePreRel hpre] at hname
    cases hname
  · split at hstep
    · injection hstep with ha hb
      rw [← ha, ← hb]
      exact ⟨fun h => h, rfl⟩
    · split at hstep
      · split at hstep
        · injection hstep with ha hb
          rw [← ha, ← hb]
          exact ⟨fun _ => rfl, rfl⟩
        · split at hstep
          · rename_i hclose hver
            rw [chartPre_not_verPre hpre] at hver
            cases hver
          · injection hstep with ha hb
            rw [← ha, ← hb]
            exact ⟨fun h => h, rfl⟩
      · injection hstep with ha hb
        rw [← ha, ← hb]
        exact ⟨fun h => h, rfl⟩

/-- A `chart:` line with an inline value never opens a Chart scope in
the anchor pass and is never patched. -/
theorem anchorStep_inline_chart (k v : Str) (s : AState) (l : Str)
    (hpre : startsWith chartKey (trimSpaceG l) = true)
    (hne : trimSpaceG l ≠ chartKey) :
    (s.inChart = false → (anchorStep k v s l).1.inChart = false) ∧
      (anchorStep k v s l).2 = l := by
  rcases hstep : anchorStep k v s l with ⟨s2, l2⟩
  unfold anchorStep at hstep
  dsimp only at hstep
  split at hstep
  · rename_i hdot
    rw [chartPre_not_dotPre hpre] at hdot
    rcases hdot with ⟨_, hx, _⟩
    cases hx
  · split at hstep
    · split at hstep
      · rename_i hexit
        rw [hpre] at hexit
        rcases hexit with ⟨_, hx, _⟩
        cases hx
      · split at hstep
        · split at hstep
          · injection hstep with ha hb
            rw [← ha, ← hb]
            exact ⟨fun _ => rfl, rfl⟩
          · split at hstep
            · rename_i hclose hname
              rw [chartPre_not_namePreCh hpre] at hname
              cases hname
            · split at hstep
              · rename_i hclose hname hver
                rw [chartPre_not_verPre hpre] at hver
                cases hver
              · injection hstep with ha hb
                rw [← ha, ← hb]
                exact ⟨fun h => h, rfl⟩
        · injection hstep with ha hb
          rw [← ha, ← hb]
          exact ⟨fun h => h, rfl⟩
    · injection hstep with ha hb
      rw [← ha, ← hb]
      exact ⟨fun h => h, rfl⟩

/-- C4 counterexample: in the anchor pass the chart-closing test
compares a line's indent against the ANCHOR's opening indent, not the
Chart scope's own opening indent.  Here `  x: 1` (indent 2) lies at
indent at most the `    chart:` opener's indent 4 and is not a
`name:`/`version:` line, so by the claimed rule the Chart scope would
close and the later `version:` line could not be patched; the engine
compares 2 against the anchor indent 0, keeps the scope open, and
patches the `version:` line. -/
theorem c4_counterexample :
    updateFileText
        ".a:\n    chart:\n  x: 1\n      name: ra\n      version: 1.0.0".toList
        [] [("ra".toList, "9.9.9".toList)] =
      ".a:\n    chart:\n  x: 1\n      name: ra\n      version: 9.9.9".toList := by
  decide

/-- C4 amended: (1) in the release pass, a line closes the open Chart
scope exactly when it is a `- name:` line, or a `version:` line (which
is acted on and closes both scopes), or a line other than an exact
`chart:` opener whose indent is at most the chart opening indent;
(2) in the anchor pass the indent comparisons are made against the
anchor's opening indent: a line closes the open Chart scope exactly
when it triggers the anchor exit (indent at most the anchor indent and
neither `chart:`-prefixed nor a comment), or it is at most the anchor
indent and neither an exact `chart:` opener nor a `name:`/`version:`
line, or it is a `version:` line with matching recorded chart name at
indent deeper than the anchor's; (3) and (4): a `chart:` line bearing
an inline value is never treated as a block opener in either pass and
is never patched. -/
theorem c4_amended_scope_rules :
    (∀ (k v : Str) (s : RState) (l : Str),
      s.inRelease = true → s.inChart = true →
      ((relStep k v s l).1.inChart = false ↔
        (startsWith nameKeyRel (trimSpaceG l) = true ∨
         startsWith verKey (trimSpaceG l) = true ∨
         (trimSpaceG l ≠ chartKey ∧ indentOf l ≤ s.chartIndent)))) ∧
    (∀ (k v : Str) (s : AState) (l : Str),
      s.inAnchor = true → s.inChart = true →
      ((anchorStep k v s l).1.inChart = false ↔
        ((indentOf l ≤ s.anchorIndent ∧
            startsWith chartKey (trimSpaceG l) = false ∧
            startsWith hashKey (trimSpaceG l) = false) ∨
         (indentOf l ≤ s.anchorIndent ∧ trimSpaceG l ≠ chartKey ∧
            startsWith nameKeyCh (trimSpaceG l) = false ∧
            startsWith verKey (trimSpaceG l) = false) ∨
         (startsWith verKey (trimSpaceG l) = true ∧
            s.foundChartName = k ∧
            ¬ indentOf l ≤ s.anchorIndent)))) ∧
    (∀ (k v : Str) (s : RState) (l : Str),
      startsWith chartKey (trimSpaceG l) = true → trimSpaceG l ≠ chartKey →
      (s.inChart = false → (relStep k v s l).1.inChart = false) ∧
        (relStep k v s l).2 = l) ∧
    (∀ (k v : Str) (s : AState) (l : Str),
      startsWith chartKey (trimSpaceG l) = true → trimSpaceG l ≠ chartKey →
      (s.inChart = false → (anchorStep k v s l).1.inChart = false) ∧
        (anchorStep k v s l).2 = l) :=
  ⟨relChartCloseIff, anchorChartCloseIff, relStep_inline_chart,
    anchorStep_inline_chart⟩

/-- Witness for the amended C4, instantiating the anchor-pass
characterization and the inline-chart rule at concrete inputs. -/
theorem c4_amended_scope_rules_witness :
    (((anchorStep "ra".toList "9.9.9".toList ⟨true, true, 0, "ra".toList⟩
        "  x: 1".toList).1.inChart = false ↔
      ((indentOf "  x: 1".toList ≤ (0 : Nat) ∧
          startsWith chartKey (trimSpaceG "  x: 1".toList) = false ∧
          startsWith hashKey (trimSpaceG "  x: 1".toList) = false) ∨
       (indentOf "  x: 1".toList ≤ (0 : Nat) ∧
          trimSpaceG "  x: 1".toList ≠ chartKey ∧
          startsWith nameKeyCh (trimSpaceG "  x: 1".toList) = false ∧
          startsWith verKey (trimSpaceG "  x: 1".toList) = false) ∨
       (startsWith verKey (trimSpaceG "  x: 1".toList) = true ∧
          ("ra".toList : Str) = "ra".toList ∧
          ¬ indentOf "  x: 1".toList ≤ (0 : Nat)))) ∧
    ((relStep "a".toList "b".toList ⟨true, false, 0⟩
        "  chart: {name: x}".toList).2 = "  chart: {name: x}".toList)) :=
  ⟨c4_amended_scope_rules.2.1 "ra".toList "9.9.9".toList
      ⟨true, true, 0, "ra".toList⟩ "  x: 1".toList rfl rfl,
    (c4_amended_scope_rules.2.2.1 "a".toList "b".toList ⟨true, false, 0⟩
      "  chart: {name: x}".toList (by decide) (by decide)).2⟩

/-! ## Frame property (claim C3) -/

theorem namePreRel_not_verPre {l : Str}
    (h : startsWith nameKeyRel (trimSpaceG l) = true) :
    startsWith verKey (trimSpaceG l) = false := by
  rw [show verKey = 'v' :: "ersion:".toList from rfl]
  exact startsWith_head_false (by decide)
    (show startsWith ('-' :: " name:".toList) (trimSpaceG l) = true from h)

theorem verPre_not_dotPre {l : Str}
    (h : startsWith verKey (trimSpaceG l) = true) :
    startsWith dotKey (trimSpaceG l) = false := by
  rw [show dotKey = '.' :: [] from rfl]
  exact startsWith_head_false (by decide)
    (show startsWith ('v' :: "ersion:".toList) (trimSpaceG l) = true from h)

theorem verPre_verKeySp_any (X : Str) :
    startsWith verKey (trimSpaceG (verKeySp ++ X)) = true := by
  unfold trimSpaceG
  rw [trimLeftWs_append, show trimLeftWs verKeySp = verKeySp from by decide,
    if_neg (by decide : ¬(verKeySp = ([] : Str)))]
  rw [trimRightWs_append]
  split
  · rw [show trimRightWs verKeySp = verKey from by decide]
    have := startsWith_append_self verKey ([] : Str)
    rwa [List.append_nil] at this
  · rw [show (verKeySp : Str) = verKey ++ [' '] from rfl, List.append_assoc]
    exact startsWith_append_self _ _

theorem verPre_rebuiltLine (i : Nat) (v a : Str) :
    startsWith verKey (trimSpaceG (rebuiltLine i v a)) = true := by
  unfold rebuiltLine
  dsimp only
  rw [List.append_assoc, List.append_assoc, trimSpaceG_replicate_append]
  exact verPre_verKeySp_any _

/-- Provenance of an open Release scope: the step opens it only at a
matching `- name:` line. -/
theorem relStep_inRelease {k v : Str} {s : RState} {l : Str}
    (h : (relStep k v s l).1.inRelease = true) :
    s.inRelease = true ∨ relOpens k l := by
  rcases hstep : relStep k v s l with ⟨s2, l2⟩
  rw [hstep] at h
  unfold relStep at hstep
  dsimp only at hstep
  split at hstep
  · rename_i hname
    split at hstep
    · rename_i hmatch
      exact Or.inr ⟨hname, hmatch⟩
    · split at hstep
      · injection hstep with ha hb
        rw [← ha] at h
        cases h
      · injection hstep with ha hb
        rw [← ha] at h
        exact Or.inl h
  · split at hstep
    · injection hstep with ha hb
      rw [← ha] at h
      exact Or.inl h
    · split at hstep
      · injection hstep with ha hb
        rw [← ha] at h
        rename_i hrelf _
        exact Or.inl (by simpa using hrelf)
      · split at hstep
        · split at hstep
          · injection hstep with ha hb
            rw [← ha] at h
            rename_i hrelf _ _ _
            exact Or.inl (by simpa using hrelf)
          · split at hstep
            · split at hstep
              · injection hstep with ha hb
                rw [← ha] at h
                cases h
              · injection hstep with ha hb
                rw [← ha] at h
                cases h
            · injection hstep with ha hb
              rw [← ha] at h
              exact Or.inl h
        · injection hstep with ha hb
          rw [← ha] at h
          exact Or.inl h

/-- The anchor-opening condition of the anchor pass. -/
def anchorOpens (l : Str) : Prop :=
  startsWith dotKey (trimSpaceG l) = true ∧ hasChar ':' (trimSpaceG l) = true

instance (l : Str) : Decidable (anchorOpens l) := by
  unfold anchorOpens
  infer_instance

/-- Provenance of an open Anchor scope: the step opens it only at a
dot-prefixed line containing a colon. -/
theorem anchorStep_inAnchor {k v : Str} {s : AState} {l : Str}
    (h : (anchorStep k v s l).1.inAnchor = true) :
    s.inAnchor = true ∨ anchorOpens l := by
  rcases hstep : anchorStep k v s l with ⟨s2, l2⟩
  rw [hstep] at h
  unfold anchorStep at hstep
  dsimp only at hstep
  split at hstep
  · rename_i hdot
    exact Or.inr ⟨hdot.2.1, hdot.2.2⟩
  · split at hstep
    · split at hstep
      · injection hstep with ha hb
        rw [← ha] at h
        cases h
      · split at hstep
        · injection hstep with ha hb
          rw [← ha] at h
          exact Or.inl h
        · split at hstep
          · split at hstep
            · injection hstep with ha hb
              rw [← ha] at h
              exact Or.inl h
            · split at hstep
              · injection hstep with ha hb
                rw [← ha] at h
                exact Or.inl h
              · split at hstep
                · split at hstep
                  · split at hstep
                    · injection hstep with ha hb
                      rw [← ha] at h
                      cases h
                    · injection hstep with ha hb
                      rw [← ha] at h
                      cases h
                  · injection hstep with ha hb
                    rw [← ha] at h
                    exact Or.inl h
                · injection hstep with ha hb
                  rw [← ha] at h
                  exact Or.inl h
          · injection hstep with ha hb
            rw [← ha] at h
            exact Or.inl h
    · injection hstep with ha hb
      rw [← ha] at h
      exact Or.inl h

/-! ## Scan-state machinery for the frame property (claim C3) -/

/-- The release-pass scanner state accumulated over a list of lines. -/
def relFold (k v : Str) (s : RState) (ls : List Str) : RState :=
  ls.foldl (fun s2 l => (relStep k v s2 l).1) s

/-- The anchor-pass scanner state accumulated over a list of lines. -/
def anchorFold (k v : Str) (s : AState) (ls : List Str) : AState :=
  ls.foldl (fun s2 l => (anchorStep k v s2 l).1) s

/-- The release-pass scanner state reached just before line `i`. -/
def relStateAt (k v : Str) (ls : List Str) (i : Nat) : RState :=
  relFold k v ⟨false, false, 0⟩ (ls.take i)

/-- The anchor-pass scanner state reached just before line `i`. -/
def anchorStateAt (k v : Str) (ls : List Str) (i : Nat) : AState :=
  anchorFold k v ⟨false, false, 0, []⟩ (ls.take i)

/-- Line `i` lies inside a matched open Release/Chart scope of the
release pass for key `k`: when the scan reaches it, a release whose
`- name:` value equals `k` is open and so is its `chart:` block. -/
def relMatchedAt (k v : Str) (ls : List Str) (i : Nat) : Prop :=
  (relStateAt k v ls i).inRelease = true ∧
  (relStateAt k v ls i).inChart = true

instance (k v : Str) (ls : List Str) (i : Nat) :
    Decidable (relMatchedAt k v ls i) := by
  unfold relMatchedAt
  infer_instance

/-- Line `i` lies inside a matched open Anchor/Chart scope of the
anchor pass for key `k`: when the scan reaches it, an anchor block and
its `chart:` block are open and the recorded `name:` value equals `k`. -/
def anchorMatchedAt (k v : Str) (ls : List Str) (i : Nat) : Prop :=
  (anchorStateAt k v ls i).inAnchor = true ∧
  (anchorStateAt k v ls i).inChart = true ∧
  (anchorStateAt k v ls i).foundChartName = k

instance (k v : Str) (ls : List Str) (i : Nat) :
    Decidable (anchorMatchedAt k v ls i) := by
  unfold anchorMatchedAt
  infer_instance

theorem relFold_cons (k v : Str) (s : RState) (l : Str) (ls : List Str) :
    relFold k v s (l :: ls) = relFold k v (relStep k v s l).1 ls := rfl

theorem anchorFold_cons (k v : Str) (s : AState) (l : Str) (ls : List Str) :
    anchorFold k v s (l :: ls) = anchorFold k v (anchorStep k v s l).1 ls := rfl

/-- Two lines that agree except possibly in the value part of a
`version:` line: equal, or both `version:`-prefixed with equal indent. -/
def verSim (a b : Str) : Prop :=
  a = b ∨ (indentOf a = indentOf b ∧
    startsWith verKey (trimSpaceG a) = true ∧
    startsWith verKey (trimSpaceG b) = true)

theorem verSim_refl (a : Str) : verSim a a := Or.inl rfl

theorem verSim_trans {a b c : Str} (h1 : verSim a b) (h2 : verSim b c) :
    verSim a c := by
  rcases h1 with rfl | ⟨hi1, hva, hvb⟩
  · exact h2
  · rcases h2 with rfl | ⟨hi2, _, hvc⟩
    · exact Or.inr ⟨hi1, hva, hvb⟩
    · exact Or.inr ⟨hi1.trans hi2, hva, hvc⟩

theorem forall2_verSim_refl (ls : List Str) : List.Forall₂ verSim ls ls := by
  induction ls with
  | nil => exact List.Forall₂.nil
  | cons l ls ih => exact List.Forall₂.cons (verSim_refl l) ih

theorem forall2_verSim_trans {a b c : List Str}
    (h1 : List.Forall₂ verSim a b) (h2 : List.Forall₂ verSim b c) :
    List.Forall₂ verSim a c := by
  induction h1 generalizing c with
  | nil =>
    cases h2
    exact List.Forall₂.nil
  | cons hab htail ih =>
    cases h2 with
    | cons hbc htail2 => exact List.Forall₂.cons (verSim_trans hab hbc) (ih htail2)

theorem forall2_verSim_take {ls1 ls2 : List Str}
    (h : List.Forall₂ verSim ls1 ls2) :
    ∀ i : Nat, List.Forall₂ verSim (ls1.take i) (ls2.take i) := by
  induction h with
  | nil =>
    intro i
    cases i with
    | zero => exact List.Forall₂.nil
    | succ i => exact List.Forall₂.nil
  | cons hab htail ih =>
    intro i
    cases i with
    | zero => exact List.Forall₂.nil
    | succ i => exact List.Forall₂.cons hab (ih i)

theorem indentOf_verKeySp_any (X : Str) : indentOf (verKeySp ++ X) = 0 := by
  rw [show verKeySp ++ X = 'v' :: ("ersion: ".toList ++ X) from rfl]
  exact indentOf_of_head _ (by decide)

theorem indentOf_rebuiltLine (i : Nat) (v a : Str) :
    indentOf (rebuiltLine i v a) = i := by
  unfold rebuiltLine
  dsimp only
  rw [List.append_assoc, List.append_assoc, indentOf_replicate_append,
    indentOf_verKeySp_any]
  omega

set_option maxHeartbeats 1600000 in
/-- On a `version:`-prefixed line the release step's state transition
does not depend on the line's value: it closes both scopes when a
matched Chart scope is open and is the identity otherwise. -/
theorem relStep_fst_ver (k v : Str) (s : RState) {l : Str}
    (hv : startsWith verKey (trimSpaceG l) = true) :
    (relStep k v s l).1 =
      if s.inRelease = true ∧ s.inChart = true then
        (⟨false, false, s.chartIndent⟩ : RState)
      else s := by
  rcases hstep : relStep k v s l with ⟨s2, l2⟩
  unfold relStep at hstep
  dsimp only at hstep
  split at hstep
  · rename_i hname
    rw [verPre_not_namePreRel hv] at hname
    cases hname
  · split at hstep
    · rename_i hrelF
      injection hstep with ha hb
      have hcond : ¬ (s.inRelease = true ∧ s.inChart = true) := by
        rintro ⟨h1, _⟩
        rw [hrelF] at h1
        cases h1
      rw [← ha, if_neg hcond]
    · rename_i hrelT
      split at hstep
      · rename_i hchart
        rw [hchart] at hv
        exact absurd hv (by decide)
      · split at hstep
        · rename_i hin
          split at hstep
          · rename_i hclose
            rcases hclose with ⟨_, hc2⟩
            rw [hv] at hc2
            cases hc2
          · have hcond : s.inRelease = true ∧ s.inChart = true :=
              ⟨by simpa using hrelT, hin⟩
            split at hstep
            · injection hstep with ha hb
              rw [← ha, if_pos hcond]
            · injection hstep with ha hb
              rw [← ha, if_pos hcond]
        · rename_i hinF
          injection hstep with ha hb
          have hcond : ¬ (s.inRelease = true ∧ s.inChart = true) :=
            fun hand => hinF hand.2
          rw [← ha, if_neg hcond]

set_option maxHeartbeats 1600000 in
/-- On a `version:`-prefixed line the anchor step's state transition
does not depend on the line's value: it resets when the anchor exit
fires or a matched Chart scope is acted on, and is the identity
otherwise. -/
theorem anchorStep_fst_ver (k v : Str) (s : AState) {l : Str}
    (hv : startsWith verKey (trimSpaceG l) = true) :
    (anchorStep k v s l).1 =
      if s.inAnchor = true ∧
          (indentOf l ≤ s.anchorIndent ∨
            (s.inChart = true ∧ s.foundChartName = k)) then
        (⟨false, false, s.anchorIndent, []⟩ : AState)
      else s := by
  rcases hstep : anchorStep k v s l with ⟨s2, l2⟩
  unfold anchorStep at hstep
  dsimp only at hstep
  split at hstep
  · rename_i hopen
    rcases hopen with ⟨_, hdot, _⟩
    rw [verPre_not_dotPre hv] at hdot
    cases hdot
  · split at hstep
    · rename_i hanch
      split at hstep
      · rename_i hexit
        injection hstep with ha hb
        rw [← ha, if_pos ⟨hanch, Or.inl hexit.1⟩]
      · rename_i hnexit
        split at hstep
        · rename_i hchart
          rw [hchart] at hv
          exact absurd hv (by decide)
        · split at hstep
          · rename_i hin
            split at hstep
            · rename_i hcc
              rcases hcc with ⟨_, _, hcv⟩
              rw [hv] at hcv
              cases hcv
            · split at hstep
              · rename_i hnm
                rw [verPre_not_namePreCh hv] at hnm
                cases hnm
              · split at hstep
                · rename_i hfk
                  split at hstep
                  · injection hstep with ha hb
                    rw [← ha, if_pos ⟨hanch, Or.inr ⟨hin, hfk⟩⟩]
                  · injection hstep with ha hb
                    rw [← ha, if_pos ⟨hanch, Or.inr ⟨hin, hfk⟩⟩]
                · rename_i hfkF
                  injection hstep with ha hb
                  have hcond : ¬ (s.inAnchor = true ∧
                      (indentOf l ≤ s.anchorIndent ∨
                        (s.inChart = true ∧ s.foundChartName = k))) := by
                    rintro ⟨_, hor⟩
                    rcases hor with hle | ⟨_, hf⟩
                    · exact hnexit ⟨hle, verPre_not_chartPre hv,
                        verPre_not_hashPre hv⟩
                    · exact hfkF hf
                  rw [← ha, if_neg hcond]
          · rename_i hinF
            injection hstep with ha hb
            have hcond : ¬ (s.inAnchor = true ∧
                (indentOf l ≤ s.anchorIndent ∨
                  (s.inChart = true ∧ s.foundChartName = k))) := by
              rintro ⟨_, hor⟩
              rcases hor with hle | ⟨hin2, _⟩
              · exact hnexit ⟨hle, verPre_not_chartPre hv,
                  verPre_not_hashPre hv⟩
              · exact hinF hin2
            rw [← ha, if_neg hcond]
    · rename_i hanchF
      injection hstep with ha hb
      have hcond : ¬ (s.inAnchor = true ∧
          (indentOf l ≤ s.anchorIndent ∨
            (s.inChart = true ∧ s.foundChartName = k))) :=
        fun hand => hanchF hand.1
      rw [← ha, if_neg hcond]

theorem relStep_fst_sim (k v : Str) (s : RState) {a b : Str}
    (h : verSim a b) : (relStep k v s a).1 = (relStep k v s b).1 := by
  rcases h with rfl | ⟨hi, hva, hvb⟩
  · rfl
  · rw [relStep_fst_ver k v s hva, relStep_fst_ver k v s hvb]

theorem anchorStep_fst_sim (k v : Str) (s : AState) {a b : Str}
    (h : verSim a b) : (anchorStep k v s a).1 = (anchorStep k v s b).1 := by
  rcases h with rfl | ⟨hi, hva, hvb⟩
  · rfl
  · rw [anchorStep_fst_ver k v s hva, anchorStep_fst_ver k v s hvb, hi]

/-- The release-pass scan rewrites each line to a `verSim`-related one. -/
theorem relScan_sim (k v : Str) (s : RState) (ls : List Str) :
    List.Forall₂ verSim ls (relScan k v s ls) := by
  induction ls generalizing s with
  | nil => exact List.Forall₂.nil
  | cons l ls ih =>
    rw [relScan_cons]
    refine List.Forall₂.cons ?_ (ih _)
    rcases relStep_snd k v s l with hs | ⟨hreb, hver, _, _⟩
    · rw [hs]
      exact verSim_refl l
    · rw [hreb]
      exact Or.inr ⟨(indentOf_rebuiltLine _ _ _).symm, hver,
        verPre_rebuiltLine _ _ _⟩

/-- The anchor-pass scan rewrites each line to a `verSim`-related one. -/
theorem anchorScan_sim (k v : Str) (s : AState) (ls : List Str) :
    List.Forall₂ verSim ls (anchorScan k v s ls) := by
  induction ls generalizing s with
  | nil => exact List.Forall₂.nil
  | cons l ls ih =>
    rw [anchorScan_cons]
    refine List.Forall₂.cons ?_ (ih _)
    rcases anchorStep_snd k v s l with hs | ⟨hreb, hver, _, _, _⟩
    · rw [hs]
      exact verSim_refl l
    · rw [hreb]
      exact Or.inr ⟨(indentOf_rebuiltLine _ _ _).symm, hver,
        verPre_rebuiltLine _ _ _⟩

theorem relPasses_sim (m : List (Str × Str)) (ls : List Str) :
    List.Forall₂ verSim ls (relPasses m ls) := by
  induction m generalizing ls with
  | nil => exact forall2_verSim_refl ls
  | cons kv rest ih =>
    rcases kv with ⟨k, v⟩
    rw [relPasses_cons]
    exact forall2_verSim_trans (relScan_sim k v ⟨false, false, 0⟩ ls) (ih _)

/-- `verSim`-related buffers drive the release scanner through the same
states. -/
theorem relFold_sim {k v : Str} {ls1 ls2 : List Str}
    (h : List.Forall₂ verSim ls1 ls2) :
    ∀ s : RState, relFold k v s ls1 = relFold k v s ls2 := by
  induction h with
  | nil =>
    intro s
    rfl
  | cons hab htail ih =>
    intro s
    rw [relFold_cons, relFold_cons, relStep_fst_sim k v s hab]
    exact ih _

/-- `verSim`-related buffers drive the anchor scanner through the same
states. -/
theorem anchorFold_sim {k v : Str} {ls1 ls2 : List Str}
    (h : List.Forall₂ verSim ls1 ls2) :
    ∀ s : AState, anchorFold k v s ls1 = anchorFold k v s ls2 := by
  induction h with
  | nil =>
    intro s
    rfl
  | cons hab htail ih =>
    intro s
    rw [anchorFold_cons, anchorFold_cons, anchorStep_fst_sim k v s hab]
    exact ih _

theorem relStateAt_sim {k v : Str} {ls1 ls2 : List Str}
    (h : List.Forall₂ verSim ls1 ls2) (i : Nat) :
    relStateAt k v ls1 i = relStateAt k v ls2 i :=
  relFold_sim (forall2_verSim_take h i) ⟨false, false, 0⟩

theorem anchorStateAt_sim {k v : Str} {ls1 ls2 : List Str}
    (h : List.Forall₂ verSim ls1 ls2) (i : Nat) :
    anchorStateAt k v ls1 i = anchorStateAt k v ls2 i :=
  anchorFold_sim (forall2_verSim_take h i) ⟨false, false, 0, []⟩

theorem relFold_inRelease {k v : Str} {ls : List Str} {s : RState}
    (h : (relFold k v s ls).inRelease = true) :
    s.inRelease = true ∨ ∃ l ∈ ls, relOpens k l := by
  induction ls generalizing s with
  | nil => exact Or.inl h
  | cons l ls ih =>
    rw [relFold_cons] at h
    rcases ih h with hs | ⟨x, hx, hop⟩
    · rcases relStep_inRelease hs with h0 | hop
      · exact Or.inl h0
      · exact Or.inr ⟨l, List.mem_cons_self l ls, hop⟩
    · exact Or.inr ⟨x, List.mem_cons_of_mem l hx, hop⟩

theorem anchorFold_inAnchor {k v : Str} {ls : List Str} {s : AState}
    (h : (anchorFold k v s ls).inAnchor = true) :
    s.inAnchor = true ∨ ∃ l ∈ ls, anchorOpens l := by
  induction ls generalizing s with
  | nil => exact Or.inl h
  | cons l ls ih =>
    rw [anchorFold_cons] at h
    rcases ih h with hs | ⟨x, hx, hop⟩
    · rcases anchorStep_inAnchor hs with h0 | hop
      · exact Or.inl h0
      · exact Or.inr ⟨l, List.mem_cons_self l ls, hop⟩
    · exact Or.inr ⟨x, List.mem_cons_of_mem l hx, hop⟩

theorem mem_take_get? {l : List Str} {i : Nat} {x : Str}
    (h : x ∈ l.take i) : ∃ j, j < i ∧ l.get? j = some x := by
  rcases List.mem_iff_get?.mp h with ⟨n, hn⟩
  have hni : n < i := by
    have h1 := (List.get?_eq_some.mp hn).1
    have h2 := List.length_take_le i l
    omega
  refine ⟨n, hni, ?_⟩
  rw [← List.get?_take hni]
  exact hn

/-- A matched Release/Chart scope at line `i` was opened by an earlier
`- name:` line whose extracted value is the requested release name. -/
theorem relMatchedAt_src {k v : Str} {ls : List Str} {i : Nat}
    (h : relMatchedAt k v ls i) :
    ∃ j, j < i ∧ ∃ lj, ls.get? j = some lj ∧ relOpens k lj := by
  rcases relFold_inRelease h.1 with h0 | ⟨l, hl, hop⟩
  · cases h0
  · rcases mem_take_get? hl with ⟨j, hj, hget⟩
    exact ⟨j, hj, l, hget, hop⟩

/-- A matched Anchor/Chart scope at line `i` was opened by an earlier
dot-prefixed anchor line. -/
theorem anchorMatchedAt_src {k v : Str} {ls : List Str} {i : Nat}
    (h : anchorMatchedAt k v ls i) :
    ∃ j, j < i ∧ ∃ lj, ls.get? j = some lj ∧ anchorOpens lj := by
  rcases anchorFold_inAnchor h.1 with h0 | ⟨l, hl, hop⟩
  · cases h0
  · rcases mem_take_get? hl with ⟨j, hj, hget⟩
    exact ⟨j, hj, l, hget, hop⟩

/-- A line changed by the release scan is a `version:` line reached
with the matched Release/Chart scope open. -/
theorem relScan_state_frame {k v : Str} (s : RState) (ls : List Str) (i : Nat)
    (hch : (relScan k v s ls).get? i ≠ ls.get? i) :
    ∃ l, ls.get? i = some l ∧
      (relScan k v s ls).get? i =
        some (rebuiltLine (indentOf l) v (afterOf (trimSpaceG l))) ∧
      startsWith verKey (trimSpaceG l) = true ∧
      (relFold k v s (ls.take i)).inRelease = true ∧
      (relFold k v s (ls.take i)).inChart = true := by
  induction ls generalizing s i with
  | nil => exact absurd rfl hch
  | cons l ls ih =>
    cases i with
    | zero =>
      rw [relScan_cons] at hch ⊢
      simp only [List.get?_cons_zero] at hch ⊢
      rcases relStep_snd k v s l with hs | ⟨hreb, hver, hrel, hin⟩
      · rw [hs] at hch
        exact absurd rfl hch
      · exact ⟨l, rfl, by rw [hreb], hver, hrel, hin⟩
    | succ i =>
      rw [relScan_cons] at hch ⊢
      simp only [List.get?_cons_succ] at hch ⊢
      rcases ih (relStep k v s l).1 i hch with ⟨la, hla, hl2, hv1, hr, hc⟩
      exact ⟨la, hla, hl2, hv1, hr, hc⟩

/-- A line changed by the anchor scan is a `version:` line reached with
the matched Anchor/Chart scope open and the matching recorded name. -/
theorem anchorScan_state_frame {k v : Str} (s : AState) (ls : List Str)
    (i : Nat) (hch : (anchorScan k v s ls).get? i ≠ ls.get? i) :
    ∃ l, ls.get? i = some l ∧
      (anchorScan k v s ls).get? i =
        some (rebuiltLine (indentOf l) v (afterOf (trimSpaceG l))) ∧
      startsWith verKey (trimSpaceG l) = true ∧
      (anchorFold k v s (ls.take i)).inAnchor = true ∧
      (anchorFold k v s (ls.take i)).inChart = true ∧
      (anchorFold k v s (ls.take i)).foundChartName = k := by
  induction ls generalizing s i with
  | nil => exact absurd rfl hch
  | cons l ls ih =>
    cases i with
    | zero =>
      rw [anchorScan_cons] at hch ⊢
      simp only [List.get?_cons_zero] at hch ⊢
      rcases anchorStep_snd k v s l with hs | ⟨hreb, hver, hanch, hin, hfound⟩
      · rw [hs] at hch
        exact absurd rfl hch
      · exact ⟨l, rfl, by rw [hreb], hver, hanch, hin, hfound⟩
    | succ i =>
      rw [anchorScan_cons] at hch ⊢
      simp only [List.get?_cons_succ] at hch ⊢
      rcases ih (anchorStep k v s l).1 i hch with
        ⟨la, hla, hl2, hv1, ha1, ha2, ha3⟩
      exact ⟨la, hla, hl2, hv1, ha1, ha2, ha3⟩

theorem relPass_state_frame {k v : Str} (ls : List Str) (i : Nat)
    (hch : (relPass k v ls).get? i ≠ ls.get? i) :
    ∃ l, ls.get? i = some l ∧
      (relPass k v ls).get? i =
        some (rebuiltLine (indentOf l) v (afterOf (trimSpaceG l))) ∧
      startsWith verKey (trimSpaceG l) = true ∧
      relMatchedAt k v ls i := by
  rcases relScan_state_frame ⟨false, false, 0⟩ ls i hch with
    ⟨l, hl, hl2, hv, hr, hc⟩
  exact ⟨l, hl, hl2, hv, hr, hc⟩

theorem anchorPass_state_frame {k v : Str} (ls : List Str) (i : Nat)
    (hch : (anchorPass k v ls).get? i ≠ ls.get? i) :
    ∃ l, ls.get? i = some l ∧
      (anchorPass k v ls).get? i =
        some (rebuiltLine (indentOf l) v (afterOf (trimSpaceG l))) ∧
      startsWith verKey (trimSpaceG l) = true ∧
      anchorMatchedAt k v ls i := by
  rcases anchorScan_state_frame ⟨false, false, 0, []⟩ ls i hch with
    ⟨l, hl, hl2, hv, ha1, ha2, ha3⟩
  exact ⟨l, hl, hl2, hv, ha1, ha2, ha3⟩

/-- A line changed by the release passes is a `version:` line lying in
a matched Release/Chart scope (over the original buffer) of one of the
requested keys. -/
theorem relPasses_state_frame (m : List (Str × Str)) (ls : List Str) (i : Nat)
    (hch : (relPasses m ls).get? i ≠ ls.get? i) :
    ∃ l l2, ls.get? i = some l ∧ (relPasses m ls).get? i = some l2 ∧
      startsWith verKey (trimSpaceG l) = true ∧
      startsWith verKey (trimSpaceG l2) = true ∧
      ∃ kv ∈ m, relMatchedAt kv.1 kv.2 ls i := by
  induction m generalizing ls with
  | nil => exact absurd rfl hch
  | cons kv rest ih =>
    rcases kv with ⟨k, v⟩
    rw [relPasses_cons] at hch ⊢
    by_cases hmid : (relPasses rest (relPass k v ls)).get? i =
        (relPass k v ls).get? i
    · have hch2 : (relPass k v ls).get? i ≠ ls.get? i := by
        intro hx
        exact hch (hmid.trans hx)
      rcases relPass_state_frame ls i hch2 with ⟨l, hl, hl2, hv1, hm⟩
      refine ⟨l, rebuiltLine (indentOf l) v (afterOf (trimSpaceG l)), hl,
        hmid.trans hl2, hv1, verPre_rebuiltLine _ _ _, (k, v),
        List.mem_cons_self _ _, hm⟩
    · rcases ih (relPass k v ls) hmid with
        ⟨lm, l2, hlm, hl2, hvm, hv2, kv2, hkv2, hm⟩
      have hsim : List.Forall₂ verSim ls (relPass k v ls) :=
        relScan_sim k v ⟨false, false, 0⟩ ls
      have hm2 : relMatchedAt kv2.1 kv2.2 ls i := by
        have heq : relStateAt kv2.1 kv2.2 ls i =
            relStateAt kv2.1 kv2.2 (relPass k v ls) i := relStateAt_sim hsim i
        unfold relMatchedAt
        rw [heq]
        exact hm
      have hinp : ∃ l, ls.get? i = some l ∧
          startsWith verKey (trimSpaceG l) = true := by
        by_cases hx : (relPass k v ls).get? i = ls.get? i
        · exact ⟨lm, by rw [← hx, hlm], hvm⟩
        · rcases relPass_state_frame ls i hx with ⟨la, hla, _, hva, _⟩
          exact ⟨la, hla, hva⟩
      rcases hinp with ⟨l, hl, hv1⟩
      exact ⟨l, l2, hl, hl2, hv1, hv2, kv2, List.mem_cons_of_mem _ hkv2, hm2⟩

/-- A line changed by the anchor passes is a `version:` line lying in a
matched Anchor/Chart scope (over the passes' input buffer) of one of
the requested keys. -/
theorem anchorPasses_state_frame (m : List (Str × Str)) (ls : List Str)
    (i : Nat) (hch : (anchorPasses m ls).get? i ≠ ls.get? i) :
    ∃ l l2, ls.get? i = some l ∧ (anchorPasses m ls).get? i = some l2 ∧
      startsWith verKey (trimSpaceG l) = true ∧
      startsWith verKey (trimSpaceG l2) = true ∧
      ∃ kv ∈ m, anchorMatchedAt kv.1 kv.2 ls i := by
  induction m generalizing ls with
  | nil => exact absurd rfl hch
  | cons kv rest ih =>
    rcases kv with ⟨k, v⟩
    rw [anchorPasses_cons] at hch ⊢
    by_cases hmid : (anchorPasses rest (anchorPass k v ls)).get? i =
        (anchorPass k v ls).get? i
    · have hch2 : (anchorPass k v ls).get? i ≠ ls.get? i := by
        intro hx
        exact hch (hmid.trans hx)
      rcases anchorPass_state_frame ls i hch2 with ⟨l, hl, hl2, hv1, hm⟩
      refine ⟨l, rebuiltLine (indentOf l) v (afterOf (trimSpaceG l)), hl,
        hmid.trans hl2, hv1, verPre_rebuiltLine _ _ _, (k, v),
        List.mem_cons_self _ _, hm⟩
    · rcases ih (anchorPass k v ls) hmid with
        ⟨lm, l2, hlm, hl2, hvm, hv2, kv2, hkv2, hm⟩
      have hsim : List.Forall₂ verSim ls (anchorPass k v ls) :=
        anchorScan_sim k v ⟨false, false, 0, []⟩ ls
      have hm2 : anchorMatchedAt kv2.1 kv2.2 ls i := by
        have heq : anchorStateAt kv2.1 kv2.2 ls i =
            anchorStateAt kv2.1 kv2.2 (anchorPass k v ls) i :=
          anchorStateAt_sim hsim i
        unfold anchorMatchedAt
        rw [heq]
        exact hm
      have hinp : ∃ l, ls.get? i = some l ∧
          startsWith verKey (trimSpaceG l) = true := by
        by_cases hx : (anchorPass k v ls).get? i = ls.get? i
        · exact ⟨lm, by rw [← hx, hlm], hvm⟩
        · rcases anchorPass_state_frame ls i hx with ⟨la, hla, _, hva, _⟩
          exact ⟨la, hla, hva⟩
      rcases hinp with ⟨l, hl, hv1⟩
      exact ⟨l, l2, hl, hl2, hv1, hv2, kv2, List.mem_cons_of_mem _ hkv2, hm2⟩

theorem relScan_frame {k v : Str} (s : RState) (ls : List Str) (i : Nat)
    (hch : (relScan k v s ls).get? i ≠ ls.get? i) :
    ∃ l l2, ls.get? i = some l ∧ (relScan k v s ls).get? i = some l2 ∧
      startsWith verKey (trimSpaceG l) = true ∧
      startsWith verKey (trimSpaceG l2) = true ∧
      (s.inRelease = true ∨
        ∃ j, j < i ∧ ∃ lj, ls.get? j = some lj ∧ relOpens k lj) := by
  induction ls generalizing s i with
  | nil => exact absurd rfl hch
  | cons l ls ih =>
    cases i with
    | zero =>
      rw [relScan_cons] at hch ⊢
      simp only [List.get?_cons_zero] at hch ⊢
      rcases relStep_snd k v s l with hs | ⟨hreb, hver, hrel, _⟩
      · rw [hs] at hch
        exact absurd rfl hch
      · refine ⟨l, (relStep k v s l).2, rfl, rfl, hver, ?_, Or.inl hrel⟩
        rw [hreb]
        exact verPre_rebuiltLine _ _ _
    | succ i =>
      rw [relScan_cons] at hch ⊢
      simp only [List.get?_cons_succ] at hch ⊢
      rcases ih (relStep k v s l).1 i hch with
        ⟨la, l2, hla, hl2, hv1, hv2, hst⟩
      refine ⟨la, l2, hla, hl2, hv1, hv2, ?_⟩
      rcases hst with hs | ⟨j, hj, lj, hlj, hop⟩
      · rcases relStep_inRelease hs with hs0 | hop
        · exact Or.inl hs0
        · exact Or.inr ⟨0, Nat.succ_pos i, l, rfl, hop⟩
      · exact Or.inr ⟨j + 1, by omega, lj, by simpa using hlj, hop⟩

theorem anchorScan_frame {k v : Str} (s : AState) (ls : List Str) (i : Nat)
    (hch : (anchorScan k v s ls).get? i ≠ ls.get? i) :
    ∃ l l2, ls.get? i = some l ∧ (anchorScan k v s ls).get? i = some l2 ∧
      startsWith verKey (trimSpaceG l) = true ∧
      startsWith verKey (trimSpaceG l2) = true ∧
      (s.inAnchor = true ∨
        ∃ j, j < i ∧ ∃ lj, ls.get? j = some lj ∧ anchorOpens lj) := by
  induction ls generalizing s i with
  | nil => exact absurd rfl hch
  | cons l ls ih =>
    cases i with
    | zero =>
      rw [anchorScan_cons] at hch ⊢
      simp only [List.get?_cons_zero] at hch ⊢
      rcases anchorStep_snd k v s l with hs | ⟨hreb, hver, hanch, _, _⟩
      · rw [hs] at hch
        exact absurd rfl hch
      · refine ⟨l, (anchorStep k v s l).2, rfl, rfl, hver, ?_, Or.inl hanch⟩
        rw [hreb]
        exact verPre_rebuiltLine _ _ _
    | succ i =>
      rw [anchorScan_cons] at hch ⊢
      simp only [List.get?_cons_succ] at hch ⊢
      rcases ih (anchorStep k v s l).1 i hch with
        ⟨la, l2, hla, hl2, hv1, hv2, hst⟩
      refine ⟨la, l2, hla, hl2, hv1, hv2, ?_⟩
      rcases hst with hs | ⟨j, hj, lj, hlj, hop⟩
      · rcases anchorStep_inAnchor hs with hs0 | hop
        · exact Or.inl hs0
        · exact Or.inr ⟨0, Nat.succ_pos i, l, rfl, hop⟩
      · exact Or.inr ⟨j + 1, by omega, lj, by simpa using hlj, hop⟩

theorem relPass_frame {k v : Str} (ls : List Str) (i : Nat)
    (hch : (relPass k v ls).get? i ≠ ls.get? i) :
    ∃ l l2, ls.get? i = some l ∧ (relPass k v ls).get? i = some l2 ∧
      startsWith verKey (trimSpaceG l) = true ∧
      startsWith verKey (trimSpaceG l2) = true ∧
      ∃ j, j < i ∧ ∃ lj, ls.get? j = some lj ∧ relOpens k lj := by
  rcases relScan_frame ⟨false, false, 0⟩ ls i hch with
    ⟨l, l2, hl, hl2, hv1, hv2, hst⟩
  rcases hst with hs | hop
  · cases hs
  · exact ⟨l, l2, hl, hl2, hv1, hv2, hop⟩

theorem anchorPass_frame {k v : Str} (ls : List Str) (i : Nat)
    (hch : (anchorPass k v ls).get? i ≠ ls.get? i) :
    ∃ l l2, ls.get? i = some l ∧ (anchorPass k v ls).get? i = some l2 ∧
      startsWith verKey (trimSpaceG l) = true ∧
      startsWith verKey (trimSpaceG l2) = true ∧
      ∃ j, j < i ∧ ∃ lj, ls.get? j = some lj ∧ anchorOpens lj := by
  rcases anchorScan_frame ⟨false, false, 0, []⟩ ls i hch with
    ⟨l, l2, hl, hl2, hv1, hv2, hst⟩
  rcases hst with hs | hop
  · cases hs
  · exact ⟨l, l2, hl, hl2, hv1, hv2, hop⟩

theorem relPasses_frame (m : List (Str × Str)) (ls : List Str) (i : Nat)
    (hch : (relPasses m ls).get? i ≠ ls.get? i) :
    ∃ l l2, ls.get? i = some l ∧ (relPasses m ls).get? i = some l2 ∧
      startsWith verKey (trimSpaceG l) = true ∧
      startsWith verKey (trimSpaceG l2) = true ∧
      ∃ j, j < i ∧ ∃ lj, ls.get? j = some lj ∧
        ∃ kv ∈ m, relOpens kv.1 lj := by
  induction m generalizing ls with
  | nil => exact absurd rfl hch
  | cons kv rest ih =>
    rcases kv with ⟨k, v⟩
    rw [relPasses_cons] at hch ⊢
    by_cases hmid : (relPasses rest (relPass k v ls)).get? i =
        (relPass k v ls).get? i
    · have hch2 : (relPass k v ls).get? i ≠ ls.get? i := by
        intro hx
        exact hch (hmid.trans hx)
      rcases relPass_frame ls i hch2 with
        ⟨l, l2, hl, hl2, hv1, hv2, j, hj, lj, hlj, hop⟩
      exact ⟨l, l2, hl, hmid.trans hl2, hv1, hv2, j, hj, lj, hlj,
        (k, v), by simp, hop⟩
    · rcases ih (relPass k v ls) hmid with
        ⟨lm, l2, hlm, hl2, hvm, hv2, j, hj, lj, hljm, kv2, hkv2, hop⟩
      have htrans : ∀ (jx : Nat) (lx : Str),
          (relPass k v ls).get? jx = some lx →
          startsWith nameKeyRel (trimSpaceG lx) = true →
          ls.get? jx = some lx := by
        intro jx lx hlx hnpre
        by_cases hx : (relPass k v ls).get? jx = ls.get? jx
        · rw [← hx, hlx]
        · rcases relPass_frame ls jx hx with
            ⟨la, l2a, hla, hl2a, hva, hv2a, _⟩
          rw [hlx] at hl2a
          injection hl2a with he
          rw [← he] at hv2a
          rw [namePreRel_not_verPre hnpre] at hv2a
          cases hv2a
      have hinp : ∃ l, ls.get? i = some l ∧
          startsWith verKey (trimSpaceG l) = true := by
        by_cases hx : (relPass k v ls).get? i = ls.get? i
        · exact ⟨lm, by rw [← hx, hlm], hvm⟩
        · rcases relPass_frame ls i hx with
            ⟨la, l2a, hla, hl2a, hva, hv2a, _⟩
          exact ⟨la, hla, hva⟩
      rcases hinp with ⟨l, hl, hv1⟩
      exact ⟨l, l2, hl, hl2, hv1, hv2, j, hj, lj,
        htrans j lj hljm hop.1, kv2, by simp [hkv2], hop⟩

theorem anchorPasses_frame (m : List (Str × Str)) (ls : List Str) (i : Nat)
    (hch : (anchorPasses m ls).get? i ≠ ls.get? i) :
    ∃ l l2, ls.get? i = some l ∧ (anchorPasses m ls).get? i = some l2 ∧
      startsWith verKey (trimSpaceG l) = true ∧
      startsWith verKey (trimSpaceG l2) = true ∧
      ∃ j, j < i ∧ ∃ lj, ls.get? j = some lj ∧ anchorOpens lj := by
  induction m generalizing ls with
  | nil => exact absurd rfl hch
  | cons kv rest ih =>
    rcases kv with ⟨k, v⟩
    rw [anchorPasses_cons] at hch ⊢
    by_cases hmid : (anchorPasses rest (anchorPass k v ls)).get? i =
        (anchorPass k v ls).get? i
    · have hch2 : (anchorPass k v ls).get? i ≠ ls.get? i := by
        intro hx
        exact hch (hmid.trans hx)
      rcases anchorPass_frame ls i hch2 with
        ⟨l, l2, hl, hl2, hv1, hv2, j, hj, lj, hlj, hop⟩
      exact ⟨l, l2, hl, hmid.trans hl2, hv1, hv2, j, hj, lj, hlj, hop⟩
    · rcases ih (anchorPass k v ls) hmid with
        ⟨lm, l2, hlm, hl2, hvm, hv2, j, hj, lj, hljm, hop⟩
      have htrans : ls.get? j = some lj := by
        by_cases hx : (anchorPass k v ls).get? j = ls.get? j
        · rw [← hx, hljm]
        · rcases anchorPass_frame ls j hx with
            ⟨la, l2a, hla, hl2a, hva, hv2a, _⟩
          rw [hljm] at hl2a
          injection hl2a with he
          rw [← he] at hv2a
          rcases hop with ⟨hx1, _⟩
          rw [verPre_not_dotPre hv2a] at hx1
          cases hx1
      have hinp : ∃ l, ls.get? i = some l ∧
          startsWith verKey (trimSpaceG l) = true := by
        by_cases hx : (anchorPass k v ls).get? i = ls.get? i
        · exact ⟨lm, by rw [← hx, hlm], hvm⟩
        · rcases anchorPass_frame ls i hx with
            ⟨la, l2a, hla, hl2a, hva, hv2a, _⟩
          exact ⟨la, hla, hva⟩
      rcases hinp with ⟨l, hl, hv1⟩
      exact ⟨l, l2, hl, hl2, hv1, hv2, j, hj, lj, htrans, hop⟩

/-- C3: only `version:` lines inside a matched open scope may differ
between the patch engine's input and output.  A line whose bytes
changed is a `version:` line both before and after, and for some
requested mapping entry the scanner state reached at that line -- over
the original buffer -- is a matched open scope: an open Release scope
(opened at an earlier `- name:` line whose extracted value is that
entry's release name) with its `chart:` block open, or an open Anchor
scope (opened at an earlier dot-prefixed anchor line) with its
`chart:` block open and recorded `name:` value equal to that entry's
chart identity.  Contrapositively, every line outside every matched
scope -- in particular every line inside a skipped or closed scope --
keeps exactly its input bytes. -/
theorem c3_frame_effect (ls : List Str) (m1 m2 : List (Str × Str)) (i : Nat)
    (hch : (updateFileLines ls m1 m2).get? i ≠ ls.get? i) :
    ∃ l l2, ls.get? i = some l ∧
      (updateFileLines ls m1 m2).get? i = some l2 ∧
      startsWith verKey (trimSpaceG l) = true ∧
      startsWith verKey (trimSpaceG l2) = true ∧
      ((∃ kv ∈ m1, relMatchedAt kv.1 kv.2 ls i ∧
          ∃ j, j < i ∧ ∃ lj, ls.get? j = some lj ∧ relOpens kv.1 lj) ∨
        (∃ kv ∈ m2, anchorMatchedAt kv.1 kv.2 ls i ∧
          ∃ j, j < i ∧ ∃ lj, ls.get? j = some lj ∧ anchorOpens lj)) := by
  unfold updateFileLines at hch ⊢
  by_cases hmid : (anchorPasses m2 (relPasses m1 ls)).get? i =
      (relPasses m1 ls).get? i
  · have hch2 : (relPasses m1 ls).get? i ≠ ls.get? i := by
      intro hx
      exact hch (hmid.trans hx)
    rcases relPasses_state_frame m1 ls i hch2 with
      ⟨l, l2, hl, hl2, hv1, hv2, kv, hkv, hm⟩
    exact ⟨l, l2, hl, hmid.trans hl2, hv1, hv2,
      Or.inl ⟨kv, hkv, hm, relMatchedAt_src hm⟩⟩
  · rcases anchorPasses_state_frame m2 (relPasses m1 ls) i hmid with
      ⟨lm, l2, hlm, hl2, hvm, hv2, kv, hkv, hm⟩
    have hsim : List.Forall₂ verSim ls (relPasses m1 ls) := relPasses_sim m1 ls
    have hm2 : anchorMatchedAt kv.1 kv.2 ls i := by
      have heq : anchorStateAt kv.1 kv.2 ls i =
          anchorStateAt kv.1 kv.2 (relPasses m1 ls) i :=
        anchorStateAt_sim hsim i
      unfold anchorMatchedAt
      rw [heq]
      exact hm
    have hinp : ∃ l, ls.get? i = some l ∧
        startsWith verKey (trimSpaceG l) = true := by
      by_cases hx : (relPasses m1 ls).get? i = ls.get? i
      · exact ⟨lm, by rw [← hx, hlm], hvm⟩
      · rcases relPasses_state_frame m1 ls i hx with
          ⟨la, l2a, hla, hl2a, hva, hv2a, _⟩
        exact ⟨la, hla, hva⟩
    rcases hinp with ⟨l, hl, hv1⟩
    exact ⟨l, l2, hl, hl2, hv1, hv2,
      Or.inr ⟨kv, hkv, hm2, anchorMatchedAt_src hm2⟩⟩

/-- Witness for C3 at a concrete document where line 2 changes inside
the matched release's open chart scope. -/
theorem c3_frame_effect_witness :
    ∃ l l2,
      (splitNl "- name: app\n  chart:\n    version: 1.0.0".toList).get? 2 =
        some l ∧
      (updateFileLines
          (splitNl "- name: app\n  chart:\n    version: 1.0.0".toList)
          [("app".toList, "2.0.0".toList)] []).get? 2 = some l2 ∧
      startsWith verKey (trimSpaceG l) = true ∧
      startsWith verKey (trimSpaceG l2) = true ∧
      ((∃ kv ∈ [("app".toList, "2.0.0".toList)], relMatchedAt kv.1 kv.2
            (splitNl "- name: app\n  chart:\n    version: 1.0.0".toList) 2 ∧
          ∃ j, j < 2 ∧ ∃ lj,
            (splitNl
              "- name: app\n  chart:\n    version: 1.0.0".toList).get? j =
              some lj ∧ relOpens kv.1 lj) ∨
        (∃ kv ∈ ([] : List (Str × Str)), anchorMatchedAt kv.1 kv.2
            (splitNl "- name: app\n  chart:\n    version: 1.0.0".toList) 2 ∧
          ∃ j, j < 2 ∧ ∃ lj,
            (splitNl
              "- name: app\n  chart:\n    version: 1.0.0".toList).get? j =
              some lj ∧ anchorOpens lj)) :=
  c3_frame_effect
    (splitNl "- name: app\n  chart:\n    version: 1.0.0".toList)
    [("app".toList, "2.0.0".toList)] [] 2 (by decide)

/-! ## Enumeration-order independence (claim C10) -/

theorem relStep_idle {k v : Str} {s : RState} {l : Str}
    (hR : s.inRelease = false)
    (hname : startsWith nameKeyRel (trimSpaceG l) = false) :
    relStep k v s l = (s, l) := by
  unfold relStep
  dsimp only
  rw [if_neg (by rw [hname]; simp), if_pos hR]

theorem relStep_name_out {k v : Str} {s : RState} {l : Str}
    (hname : startsWith nameKeyRel (trimSpaceG l) = true) :
    (relStep k v s l).2 = l := by
  rcases relStep_snd k v s l with h | ⟨_, hver, _, _⟩
  · exact h
  · rw [namePreRel_not_verPre hname] at hver
    cases hver

theorem relStep_name_state {k v : Str} {s : RState} {l : Str}
    (hname : startsWith nameKeyRel (trimSpaceG l) = true) :
    (relStep k v s l).1 =
      if relNameOf (trimSpaceG l) = k then
        ⟨true, false, s.chartIndent⟩
      else if s.inRelease = true then ⟨false, false, s.chartIndent⟩
      else s := by
  unfold relStep
  dsimp only
  rw [if_pos hname]
  split
  · rfl
  · split
    · rfl
    · rfl

theorem relStep_out_not_name {k v : Str} {s : RState} {l : Str}
    (hname : startsWith nameKeyRel (trimSpaceG l) = false) :
    startsWith nameKeyRel (trimSpaceG (relStep k v s l).2) = false := by
  rcases relStep_snd k v s l with h | ⟨h, _, _, _⟩
  · rw [h]
    exact hname
  · rw [h]
    have := verPre_rebuiltLine (indentOf l) v (afterOf (trimSpaceG l))
    exact verPre_not_namePreRel this

/-- Per-line commutation diagram for two release passes with distinct
keys, under the invariant that the two scans are not simultaneously
inside a Release scope. -/
theorem relStep_comm {k1 v1 k2 v2 : Str} (hk : k1 ≠ k2)
    (s1 s2 : RState) (l : Str)
    (hinv : s1.inRelease = false ∨ s2.inRelease = false) :
    (relStep k1 v1 s1 (relStep k2 v2 s2 l).2).1 = (relStep k1 v1 s1 l).1 ∧
    (relStep k2 v2 s2 (relStep k1 v1 s1 l).2).1 = (relStep k2 v2 s2 l).1 ∧
    (relStep k1 v1 s1 (relStep k2 v2 s2 l).2).2 =
      (relStep k2 v2 s2 (relStep k1 v1 s1 l).2).2 ∧
    ((relStep k1 v1 s1 l).1.inRelease = false ∨
      (relStep k2 v2 s2 l).1.inRelease = false) := by
  by_cases hname : startsWith nameKeyRel (trimSpaceG l) = true
  · have ho1 : (relStep k1 v1 s1 l).2 = l := relStep_name_out hname
    have ho2 : (relStep k2 v2 s2 l).2 = l := relStep_name_out hname
    refine ⟨by rw [ho2], by rw [ho1], by rw [ho1, ho2]; exact ho1, ?_⟩
    by_cases hm1 : relNameOf (trimSpaceG l) = k1
    · right
      rw [relStep_name_state hname,
        if_neg (fun hx => hk ((hm1.symm.trans hx)))]
      split
      · rfl
      · rename_i hs2
        simpa using hs2
    · left
      rw [relStep_name_state hname, if_neg hm1]
      split
      · rfl
      · rename_i hs1
        simpa using hs1
  · have hname2 : startsWith nameKeyRel (trimSpaceG l) = false := by
      simpa using hname
    rcases hinv with h1 | h2
    · have hq1 : relStep k1 v1 s1 l = (s1, l) := relStep_idle h1 hname2
      have hnm2 := relStep_out_not_name (k := k2) (v := v2) (s := s2)
        hname2
      have hp1 : relStep k1 v1 s1 (relStep k2 v2 s2 l).2 =
          (s1, (relStep k2 v2 s2 l).2) := relStep_idle h1 hnm2
      refine ⟨?_, ?_, ?_, ?_⟩
      · rw [hp1, hq1]
      · rw [hq1]
      · rw [hp1, hq1]
      · left
        rw [hq1]
        exact h1
    · have hq2 : relStep k2 v2 s2 l = (s2, l) := relStep_idle h2 hname2
      have hnm1 := relStep_out_not_name (k := k1) (v := v1) (s := s1)
        hname2
      have hp2 : relStep k2 v2 s2 (relStep k1 v1 s1 l).2 =
          (s2, (relStep k1 v1 s1 l).2) := relStep_idle h2 hnm1
      refine ⟨?_, ?_, ?_, ?_⟩
      · rw [hq2]
      · rw [hp2, hq2]
      · rw [hq2, hp2]
      · right
        rw [hq2]
        exact h2

theorem relScan_comm {k1 v1 k2 v2 : Str} (hk : k1 ≠ k2) (ls : List Str) :
    ∀ (s1 s2 : RState),
    (s1.inRelease = false ∨ s2.inRelease = false) →
    relScan k1 v1 s1 (relScan k2 v2 s2 ls) =
      relScan k2 v2 s2 (relScan k1 v1 s1 ls) := by
  induction ls with
  | nil => intro s1 s2 _; rfl
  | cons l ls ih =>
    intro s1 s2 hinv
    obtain ⟨hc1, hc2, hc3, hc4⟩ := relStep_comm hk s1 s2 l hinv
    simp only [relScan_cons]
    rw [hc1, hc2, hc3, ih _ _ hc4]

/-- Two release passes with distinct keys commute. -/
theorem relPass_comm {k1 v1 k2 v2 : Str} (hk : k1 ≠ k2) (ls : List Str) :
    relPass k1 v1 (relPass k2 v2 ls) = relPass k2 v2 (relPass k1 v1 ls) :=
  relScan_comm hk ls ⟨false, false, 0⟩ ⟨false, false, 0⟩ (Or.inl rfl)

theorem relPasses_eq_foldl (m : List (Str × Str)) (ls : List Str) :
    relPasses m ls = m.foldl (fun acc kv => relPass kv.1 kv.2 acc) ls := by
  induction m generalizing ls with
  | nil => rfl
  | cons kv rest ih =>
    rcases kv with ⟨k, v⟩
    rw [relPasses_cons, ih, List.foldl_cons]

/-- C10 counterexample: the anchor (chart-version) passes do not
commute.  In this document the pass for `ka` patches the first anchor
and detaches, while the pass for `kb` stays inside it, records `kb`
from a later `name:` line the other pass's scan does not see, and both
passes end up rewriting the same final `version:` line -- so the
last-enumerated key wins and the two enumeration orders of the same
chart-version mapping give different output. -/
theorem c10_counterexample :
    updateFileText
        ".a:\n  chart:\n    name: ka\n    version: 1.0.0\n .b:\n  chart:\n    name: ka\n #\n    name: kb\n  chart:\n    version: 2.0.0".toList
        [] [("ka".toList, "5.0.0".toList), ("kb".toList, "6.0.0".toList)] ≠
      updateFileText
        ".a:\n  chart:\n    name: ka\n    version: 1.0.0\n .b:\n  chart:\n    name: ka\n #\n    name: kb\n  chart:\n    version: 2.0.0".toList
        [] [("kb".toList, "6.0.0".toList), ("ka".toList, "5.0.0".toList)] := by
  decide

/-- C10 amended: the release-version passes are order independent --
for any two enumeration orders of a release mapping with pairwise
distinct keys, `updateFileText` produces identical output (the
per-release passes commute); the chart-version (anchor) passes need
not commute, as `c10_counterexample` shows. -/
theorem c10_amended_release_order_independence (original : Str)
    (m1 m1' m2 : List (Str × Str)) (hperm : m1.Perm m1')
    (hnodup : (m1.map Prod.fst).Nodup) :
    updateFileText original m1 m2 = updateFileText original m1' m2 := by
  unfold updateFileText updateFileLines
  have hrel : relPasses m1 (splitNl original) =
      relPasses m1' (splitNl original) := by
    rw [relPasses_eq_foldl, relPasses_eq_foldl]
    refine hperm.foldl_eq' ?_ (splitNl original)
    intro x hx y hy z
    by_cases hxy : x = y
    · rw [hxy]
    · have hne : x.1 ≠ y.1 := by
        intro he
        exact hxy (List.inj_on_of_nodup_map hnodup hx hy he)
      exact relPass_comm (fun hc => hne hc.symm) z
  rw [hrel]

/-- Witness for the amended C10: swapping a two-entry release mapping
leaves the output unchanged. -/
theorem c10_amended_release_order_independence_witness :
    updateFileText
        "- name: a\n  chart:\n    version: 1.0.0\n- name: b\n  chart:\n    version: 2.0.0".toList
        [("a".toList, "3.0.0".toList), ("b".toList, "4.0.0".toList)] [] =
      updateFileText
        "- name: a\n  chart:\n    version: 1.0.0\n- name: b\n  chart:\n    version: 2.0.0".toList
        [("b".toList, "4.0.0".toList), ("a".toList, "3.0.0".toList)] [] :=
  c10_amended_release_order_independence _ _ _ _
    (List.Perm.swap ("b".toList, "4.0.0".toList)
      ("a".toList, "3.0.0".toList) []) (by decide)
